/-
Verification of the GAO bid-protest scraping pipeline (gao_bid_protests.py).

The Python source is shallowly embedded: Python strings become `List Char`
(`Str`), the regular expressions the program uses are hand-compiled to
recursive scanning functions with the exact matching semantics of the
patterns involved (left-to-right scanning, non-overlapping matches, greedy
quantifiers with backtracking restricted to the shapes that actually occur
in these patterns), and the effectful driver code becomes explicit state
passing over an oracle environment for the network.  ASCII semantics are
used for the character classes `\w`, `\s`, `\d` and for `str.upper`,
matching the inputs this pipeline handles.
-/
import Mathlib

set_option maxRecDepth 40000

abbrev Str := List Char

/-- Python whitespace class `\s` (ASCII fragment): space, tab, newline,
carriage return, vertical tab, form feed.  Also the set stripped by
`str.strip()`. -/
def pyWS (c : Char) : Bool :=
  c == ' ' || c == '\t' || c == '\n' || c == '\r' || c == '\x0B' || c == '\x0C'

/-- Python word-character class `\w` (ASCII fragment): letters, digits,
underscore. -/
def wordChar (c : Char) : Bool :=
  (decide (97 ≤ c.toNat) && decide (c.toNat ≤ 122)) ||
  (decide (65 ≤ c.toNat) && decide (c.toNat ≤ 90)) ||
  (decide (48 ≤ c.toNat) && decide (c.toNat ≤ 57)) ||
  c == '_'

/-- `txt.replace("\r", "")` -/
def removeCR (l : Str) : Str := l.filter (fun c => !(c == '\r'))

/-- `re.sub(r"(\w)-\n(\w)", r"\1\2", txt)`: left-to-right non-overlapping
scan; on a match the two word characters are emitted and scanning resumes
after the match, otherwise scanning advances one character.  The fuel
argument only serves structural termination; each step shortens the list,
so fuel `l.length` (as supplied by `dehyph`) never runs out. -/
def dehyphGo : Nat → Str → Str
  | 0, l => l
  | _, [] => []
  | fuel + 1, a :: rest =>
    match rest with
    | '-' :: '\n' :: b :: rest2 =>
      if wordChar a && wordChar b then a :: b :: dehyphGo fuel rest2
      else a :: dehyphGo fuel rest
    | _ => a :: dehyphGo fuel rest

def dehyph (l : Str) : Str := dehyphGo l.length l

/-- Scanner for `re.sub(r"\n{3,}", "\n\n", txt)`.  In state `false` it looks
for three consecutive newlines; on finding them it emits exactly two and
switches to state `true`, which skips the remainder of the newline run
(the greedy `\n{3,}` consumes the whole run). -/
def collapseGo : Bool → Str → Str
  | _, [] => []
  | true, a :: rest =>
    if a = '\n' then collapseGo true rest else a :: collapseGo false rest
  | false, a :: rest =>
    match rest with
    | b :: c :: _ =>
      if a = '\n' ∧ b = '\n' ∧ c = '\n' then '\n' :: '\n' :: collapseGo true rest
      else a :: collapseGo false rest
    | _ => a :: collapseGo false rest

def collapseNL (l : Str) : Str := collapseGo false l

/-- Leading-whitespace strip (half of `str.strip()`). -/
def lstrip (l : Str) : Str := l.dropWhile pyWS

/-- Trailing-whitespace strip (other half of `str.strip()`). -/
def rstrip (l : Str) : Str := (l.reverse.dropWhile pyWS).reverse

/-- `str.strip()` -/
def pyStrip (l : Str) : Str := rstrip (lstrip l)

/-- `normalize_text` (gao_bid_protests.py:38-44): `if not txt: return ""`,
strip carriage returns, heal hyphen line breaks, collapse 3+ newlines to 2,
strip surrounding whitespace. -/
def normalizeText (l : Str) : Str :=
  if l = [] then []
  else pyStrip (collapseNL (dehyph (removeCR l)))

/-- Character class of `re.sub(r"[\x00-\x08\x0B\x0C\x0E-\x1F]", "", s)`. -/
def ctrlStripped (c : Char) : Bool :=
  decide (c.toNat ≤ 0x08) || c.toNat == 0x0B || c.toNat == 0x0C ||
  (decide (0x0E ≤ c.toNat) && decide (c.toNat ≤ 0x1F))

/-- `sanitize_for_excel` (gao_bid_protests.py:28-31). -/
def sanitizeForExcel (s : Option Str) : Str :=
  match s with
  | none => []
  | some s => s.filter (fun c => !ctrlStripped c)

/-- `sanitize_for_json` (gao_bid_protests.py:33-36). -/
def sanitizeForJson (s : Option Str) : Str :=
  match s with
  | none => []
  | some s => s.filter (fun c => !ctrlStripped c)


/-! ### Triple-newline absence and strip lemmas, toward claim C1 -/

/-- Length of the leading run of newlines. -/
def nlRun : Str → Nat
  | [] => 0
  | c :: rest => if c = '\n' then nlRun rest + 1 else 0

/-- `true` iff the list contains three consecutive newlines (a redex of
`re.sub(r"\n{3,}", ...)`). -/
def hasTriple : Str → Bool
  | [] => false
  | c :: rest => (c == '\n' && decide (2 ≤ nlRun rest)) || hasTriple rest

lemma nlRun_cons (a : Char) (l : Str) :
    nlRun (a :: l) = if a = '\n' then nlRun l + 1 else 0 := rfl

lemma hasTriple_cons_eq_false (c : Char) (l : Str) :
    hasTriple (c :: l) = false ↔ ((c = '\n' → nlRun l < 2) ∧ hasTriple l = false) := by
  by_cases hc : c = '\n' <;> by_cases hr : 2 ≤ nlRun l <;>
    simp [hasTriple, hc, hr] <;> omega

lemma hasTriple_cons_false {c : Char} {l : Str} (h : hasTriple (c :: l) = false) :
    hasTriple l = false := ((hasTriple_cons_eq_false c l).mp h).2

lemma hasTriple_append_right {x y : Str} (h : hasTriple (x ++ y) = false) :
    hasTriple y = false := by
  induction x with
  | nil => exact h
  | cons a x ih => exact ih (hasTriple_cons_false h)

lemma nlRun_le_append (y w : Str) : nlRun y ≤ nlRun (y ++ w) := by
  induction y with
  | nil => simp [nlRun]
  | cons a y ih =>
    by_cases ha : a = '\n'
    · simp only [List.cons_append, nlRun_cons, if_pos ha]
      omega
    · simp [nlRun_cons, ha]

lemma hasTriple_append_left {y w : Str} (h : hasTriple (y ++ w) = false) :
    hasTriple y = false := by
  induction y with
  | nil => rfl
  | cons a y ih =>
    rw [List.cons_append, hasTriple_cons_eq_false] at h
    rw [hasTriple_cons_eq_false]
    refine ⟨fun ha => ?_, ih h.2⟩
    have h1 := h.1 ha
    have h2 := nlRun_le_append y w
    omega

lemma two_le_nlRun_iff (l : Str) :
    2 ≤ nlRun l ↔ ∃ b c t, l = b :: c :: t ∧ b = '\n' ∧ c = '\n' := by
  rcases l with _ | ⟨b, _ | ⟨c, t⟩⟩
  · simp [nlRun]
  · by_cases hb : b = '\n' <;> simp [nlRun, hb]
  · by_cases hb : b = '\n' <;> by_cases hc : c = '\n' <;>
      simp [nlRun_cons, hb, hc]

lemma collapseGo_true_cons (a : Char) (l : Str) :
    collapseGo true (a :: l) =
      if a = '\n' then collapseGo true l else a :: collapseGo false l := rfl

lemma collapseGo_false_cons3 (a b c : Char) (t : Str) :
    collapseGo false (a :: b :: c :: t) =
      if a = '\n' ∧ b = '\n' ∧ c = '\n' then '\n' :: '\n' :: collapseGo true (b :: c :: t)
      else a :: collapseGo false (b :: c :: t) := rfl

lemma collapseGo_false_cons_of_not_triple (a : Char) (l : Str)
    (h : ¬(a = '\n' ∧ 2 ≤ nlRun l)) :
    collapseGo false (a :: l) = a :: collapseGo false l := by
  rcases l with _ | ⟨b, _ | ⟨c, t⟩⟩
  · rfl
  · rfl
  · rw [collapseGo_false_cons3, if_neg]
    rintro ⟨ha, hb, hc⟩
    exact h ⟨ha, by rw [two_le_nlRun_iff]; exact ⟨b, c, t, rfl, hb, hc⟩⟩

lemma nlRun_collapseGo_true (l : Str) : nlRun (collapseGo true l) = 0 := by
  induction l with
  | nil => rfl
  | cons a rest ih =>
    rw [collapseGo_true_cons]
    by_cases ha : a = '\n'
    · rwa [if_pos ha]
    · rw [if_neg ha, nlRun_cons, if_neg ha]

lemma head?_collapseGo_false (l : Str) : (collapseGo false l).head? = l.head? := by
  rcases l with _ | ⟨a, rest⟩
  · rfl
  · by_cases h : a = '\n' ∧ 2 ≤ nlRun rest
    · obtain ⟨b, c, t, ht, hb, hc⟩ := (two_le_nlRun_iff rest).mp h.2
      subst ht
      rw [collapseGo_false_cons3, if_pos ⟨h.1, hb, hc⟩]
      simp [h.1]
    · rw [collapseGo_false_cons_of_not_triple a rest h]
      rfl

lemma nlRun_eq_zero_of_head {l : Str} {c : Char} (h : l.head? = some c)
    (hc : c ≠ '\n') : nlRun l = 0 := by
  rcases l with _ | ⟨a, t⟩
  · rfl
  · simp only [List.head?_cons, Option.some.injEq] at h
    subst h
    rw [nlRun_cons, if_neg hc]

lemma nlRun_collapseGo_false_lt_two {l : Str} (h : nlRun l < 2) :
    nlRun (collapseGo false l) < 2 := by
  rcases l with _ | ⟨a, rest⟩
  · simp [collapseGo, nlRun]
  · by_cases ha : a = '\n'
    · have hr : nlRun rest = 0 := by
        rw [nlRun_cons, if_pos ha] at h; omega
      have hnt : ¬(a = '\n' ∧ 2 ≤ nlRun rest) := by omega
      rw [collapseGo_false_cons_of_not_triple a rest hnt, nlRun_cons, if_pos ha]
      rcases rest with _ | ⟨b, t⟩
      · simp [collapseGo, nlRun]
      · have hb : b ≠ '\n' := by
          intro hb
          rw [nlRun_cons, if_pos hb] at hr; omega
        have : (collapseGo false (b :: t)).head? = some b := head?_collapseGo_false _
        rw [nlRun_eq_zero_of_head this hb]
        omega
    · rw [collapseGo_false_cons_of_not_triple a rest (by tauto), nlRun_cons, if_neg ha]
      omega

lemma hasTriple_collapseGo : ∀ l : Str,
    hasTriple (collapseGo true l) = false ∧ hasTriple (collapseGo false l) = false
  | [] => ⟨rfl, rfl⟩
  | a :: rest => by
    obtain ⟨ihT, ihF⟩ := hasTriple_collapseGo rest
    constructor
    · rw [collapseGo_true_cons]
      by_cases ha : a = '\n'
      · rwa [if_pos ha]
      · rw [if_neg ha, hasTriple_cons_eq_false]
        exact ⟨fun h => absurd h ha, ihF⟩
    · by_cases h : a = '\n' ∧ 2 ≤ nlRun rest
      · obtain ⟨b, c, t, ht, hb, hc⟩ := (two_le_nlRun_iff rest).mp h.2
        subst ht
        rw [collapseGo_false_cons3, if_pos ⟨h.1, hb, hc⟩]
        have h0 : nlRun (collapseGo true (b :: c :: t)) = 0 := nlRun_collapseGo_true _
        rw [hasTriple_cons_eq_false]
        refine ⟨fun _ => ?_, ?_⟩
        · rw [nlRun_cons, if_pos rfl, h0]; omega
        · rw [hasTriple_cons_eq_false]
          exact ⟨fun _ => by rw [h0]; omega, ihT⟩
      · rw [collapseGo_false_cons_of_not_triple a rest h, hasTriple_cons_eq_false]
        refine ⟨fun ha => ?_, ihF⟩
        have hr : nlRun rest < 2 := by
          rcases Nat.lt_or_ge (nlRun rest) 2 with hr | hr
          · exact hr
          · exact absurd ⟨ha, hr⟩ h
        exact nlRun_collapseGo_false_lt_two hr

lemma collapseGo_false_of_no_triple {l : Str} (h : hasTriple l = false) :
    collapseGo false l = l := by
  induction l with
  | nil => rfl
  | cons a rest ih =>
    rw [hasTriple_cons_eq_false] at h
    have hnt : ¬(a = '\n' ∧ 2 ≤ nlRun rest) := by
      rintro ⟨ha, h2⟩
      have := h.1 ha
      omega
    rw [collapseGo_false_cons_of_not_triple a rest hnt]
    exact congrArg (a :: ·) (ih h.2)

/-! ### Strip and membership lemmas -/

lemma dropWhile_head_false {p : Char → Bool} :
    ∀ {l : Str} {c : Char} {t : Str}, l.dropWhile p = c :: t → p c = false := by
  intro l
  induction l with
  | nil => intro c t h; simp [List.dropWhile] at h
  | cons a l ih =>
    intro c t h
    by_cases ha : p a
    · rw [List.dropWhile_cons, if_pos ha] at h
      exact ih h
    · rw [List.dropWhile_cons, if_neg ha] at h
      cases h
      exact Bool.eq_false_iff.mpr ha

lemma rstrip_append (x : Str) :
    rstrip x ++ (x.reverse.takeWhile pyWS).reverse = x := by
  unfold rstrip
  conv_rhs =>
    rw [← List.reverse_reverse x,
      ← List.takeWhile_append_dropWhile (p := pyWS) (l := x.reverse)]
  rw [List.reverse_append]

lemma head?_pyStrip_not_ws {l : Str} {c : Char} {t : Str}
    (h : pyStrip l = c :: t) : pyWS c = false := by
  have hx := rstrip_append (lstrip l)
  rw [show rstrip (lstrip l) = pyStrip l from rfl, h] at hx
  rcases hd : lstrip l with _ | ⟨a, s⟩
  · rw [hd] at hx; simp at hx
  · have : a = c := by
      rw [hd] at hx
      have := congrArg List.head? hx
      simpa using this.symm
    subst this
    exact dropWhile_head_false hd

lemma getLast?_pyStrip_not_ws {l : Str} {c : Char}
    (h : (pyStrip l).getLast? = some c) : pyWS c = false := by
  unfold pyStrip rstrip at h
  rw [List.getLast?_reverse] at h
  rcases hd : (lstrip l).reverse.dropWhile pyWS with _ | ⟨a, s⟩
  · rw [hd] at h; simp at h
  · rw [hd] at h
    simp only [List.head?_cons, Option.some.injEq] at h
    subst h
    exact dropWhile_head_false hd

lemma dropWhile_eq_self_of_head {p : Char → Bool} {l : Str}
    (h : ∀ c, l.head? = some c → p c = false) : l.dropWhile p = l := by
  rcases l with _ | ⟨a, t⟩
  · rfl
  · rw [List.dropWhile_cons, if_neg]
    simp [h a rfl]

lemma pyStrip_eq_self {l : Str}
    (h1 : ∀ c, l.head? = some c → pyWS c = false)
    (h2 : ∀ c, l.getLast? = some c → pyWS c = false) : pyStrip l = l := by
  have hl : lstrip l = l := dropWhile_eq_self_of_head h1
  unfold pyStrip rstrip
  rw [hl, dropWhile_eq_self_of_head, List.reverse_reverse]
  intro c hc
  rw [List.head?_reverse] at hc
  exact h2 c hc

lemma pyStrip_idem (l : Str) : pyStrip (pyStrip l) = pyStrip l := by
  apply pyStrip_eq_self
  · intro c hc
    rcases hd : pyStrip l with _ | ⟨a, t⟩
    · rw [hd] at hc; simp at hc
    · rw [hd] at hc
      simp only [List.head?_cons, Option.some.injEq] at hc
      subst hc
      exact head?_pyStrip_not_ws hd
  · intro c hc
    exact getLast?_pyStrip_not_ws hc

lemma mem_pyStrip {c : Char} {l : Str} (h : c ∈ pyStrip l) : c ∈ l := by
  unfold pyStrip rstrip lstrip at h
  rw [List.mem_reverse] at h
  have h2 := (List.dropWhile_sublist (l := (l.dropWhile pyWS).reverse) pyWS).subset h
  rw [List.mem_reverse] at h2
  exact (List.dropWhile_sublist (l := l) pyWS).subset h2

lemma hasTriple_pyStrip {l : Str} (h : hasTriple l = false) :
    hasTriple (pyStrip l) = false := by
  have h1 : hasTriple (lstrip l) = false := by
    have hx := List.takeWhile_append_dropWhile (p := pyWS) (l := l)
    rw [← hx] at h
    exact hasTriple_append_right h
  have hx := rstrip_append (lstrip l)
  rw [← hx] at h1
  exact hasTriple_append_left h1

lemma mem_collapseGo {c : Char} : ∀ (b : Bool) (l : Str),
    c ∈ collapseGo b l → c ∈ l ∨ c = '\n'
  | _, [] => by intro h; simp [collapseGo] at h
  | true, a :: rest => by
    intro h
    rw [collapseGo_true_cons] at h
    by_cases ha : a = '\n'
    · rw [if_pos ha] at h
      rcases mem_collapseGo true rest h with hm | hm
      · exact Or.inl (List.mem_cons_of_mem a hm)
      · exact Or.inr hm
    · rw [if_neg ha] at h
      rcases List.mem_cons.mp h with hm | hm
      · exact Or.inl (hm ▸ List.mem_cons_self a rest)
      · rcases mem_collapseGo false rest hm with hm' | hm'
        · exact Or.inl (List.mem_cons_of_mem a hm')
        · exact Or.inr hm'
  | false, a :: rest => by
    intro h
    by_cases hcase : a = '\n' ∧ 2 ≤ nlRun rest
    · obtain ⟨b', c', t, ht, hb, hc⟩ := (two_le_nlRun_iff rest).mp hcase.2
      subst ht
      rw [collapseGo_false_cons3, if_pos ⟨hcase.1, hb, hc⟩] at h
      rcases List.mem_cons.mp h with hm | hm
      · exact Or.inr hm
      · rcases List.mem_cons.mp hm with hm' | hm'
        · exact Or.inr hm'
        · rcases mem_collapseGo true (b' :: c' :: t) hm' with hm'' | hm''
          · exact Or.inl (List.mem_cons_of_mem a hm'')
          · exact Or.inr hm''
    · rw [collapseGo_false_cons_of_not_triple a rest hcase] at h
      rcases List.mem_cons.mp h with hm | hm
      · exact Or.inl (hm ▸ List.mem_cons_self a rest)
      · rcases mem_collapseGo false rest hm with hm' | hm'
        · exact Or.inl (List.mem_cons_of_mem a hm')
        · exact Or.inr hm'

lemma mem_dehyphGo {c : Char} : ∀ (fuel : Nat) (l : Str), c ∈ dehyphGo fuel l → c ∈ l := by
  intro fuel l
  induction fuel, l using dehyphGo.induct with
  | case1 l => intro h; simpa only [dehyphGo] using h
  | case2 fuel =>
    intro h
    rcases fuel with _ | f <;> simp [dehyphGo] at h
  | case3 fuel a b rest2 hw ih =>
    intro h
    rw [dehyphGo, if_pos hw] at h
    rcases List.mem_cons.mp h with hm | hm
    · simp [hm]
    · rcases List.mem_cons.mp hm with hm' | hm'
      · simp [hm']
      · have := ih hm'
        simp [this]
  | case4 fuel a b rest2 hw ih =>
    intro h
    rw [dehyphGo, if_neg hw] at h
    rcases List.mem_cons.mp h with hm | hm
    · simp [hm]
    · have := ih hm
      simp [this]
  | case5 fuel a rest hshape ih =>
    intro h
    rw [dehyphGo] at h
    · rcases List.mem_cons.mp h with hm | hm
      · simp [hm]
      · have := ih hm
        simp [this]
    · exact hshape

lemma not_mem_cr_normalizeText (x : Str) : '\r' ∉ normalizeText x := by
  rw [normalizeText]
  split
  · simp
  · intro hmem
    have h1 := mem_pyStrip hmem
    rcases mem_collapseGo false _ h1 with h2 | h2
    · have h3 := mem_dehyphGo _ _ h2
      have h4 := (List.mem_filter.mp h3).2
      simp at h4
    · simp at h2

lemma hasTriple_normalizeText (x : Str) : hasTriple (normalizeText x) = false := by
  rw [normalizeText]
  split
  · rfl
  · exact hasTriple_pyStrip (hasTriple_collapseGo _).2

lemma pyStrip_normalizeText (x : Str) : pyStrip (normalizeText x) = normalizeText x := by
  rw [normalizeText]
  split
  · rfl
  · exact pyStrip_idem _

/-- Claim C1 (corrected), counterexample: `normalize_text` is not idempotent.
On `"a-\nb-\nc"` the de-hyphenation substitution heals only the first
hyphen/newline break (`re.sub` scanning resumes after each match), so a
second application changes the text again. -/
theorem normalizeText_not_idempotent :
    normalizeText "a-\nb-\nc".data = "ab-\nc".data ∧
    normalizeText (normalizeText "a-\nb-\nc".data) = "abc".data ∧
    normalizeText (normalizeText "a-\nb-\nc".data) ≠ normalizeText "a-\nb-\nc".data := by
  refine ⟨by decide, by decide, by decide⟩

/-- Claim C1 (amended): `normalize_text` is idempotent on every input `x`
for which the de-hyphenation pass leaves no residual word-char/hyphen/
newline/word-char break in `normalize_text x` (the failures are exactly the
chained hyphen line breaks, healed one per application). -/
theorem normalizeText_idempotent_of_no_residual_break (x : Str)
    (h : dehyph (normalizeText x) = normalizeText x) :
    normalizeText (normalizeText x) = normalizeText x := by
  by_cases hnil : normalizeText x = []
  · rw [hnil]; rfl
  · rw [normalizeText, if_neg hnil]
    have hcr : removeCR (normalizeText x) = normalizeText x := by
      apply List.filter_eq_self.mpr
      intro c hc
      have : c ≠ '\r' := fun hcr => not_mem_cr_normalizeText x (hcr ▸ hc)
      simp [this]
    rw [hcr, h]
    rw [show collapseNL (normalizeText x) = normalizeText x from
      collapseGo_false_of_no_triple (hasTriple_normalizeText x)]
    exact pyStrip_normalizeText x

/-- Witness for the amended claim C1 at a concrete input. -/
theorem normalizeText_idempotent_witness :
    dehyph (normalizeText "  DIGEST\n\n\n\ntext with a hy-\nphen.  ".data) =
      normalizeText "  DIGEST\n\n\n\ntext with a hy-\nphen.  ".data ∧
    normalizeText (normalizeText "  DIGEST\n\n\n\ntext with a hy-\nphen.  ".data) =
      normalizeText "  DIGEST\n\n\n\ntext with a hy-\nphen.  ".data :=
  ⟨by decide, normalizeText_idempotent_of_no_residual_break _ (by decide)⟩

/-- Claim C10: the two output sanitizers agree on every string, strip
exactly the C0 control characters other than tab (0x09), line feed (0x0A)
and carriage return (0x0D), and send a `None` input to the empty string. -/
theorem sanitizers_agree_and_strip_ctrl (s : Str) :
    sanitizeForJson (some s) = sanitizeForExcel (some s) ∧
    sanitizeForExcel (some s) =
      s.filter (fun c => decide (¬(c.toNat < 0x20 ∧ c.toNat ≠ 0x09 ∧
        c.toNat ≠ 0x0A ∧ c.toNat ≠ 0x0D))) ∧
    sanitizeForJson none = [] ∧ sanitizeForExcel none = [] := by
  refine ⟨rfl, ?_, rfl, rfl⟩
  show (s.filter fun c => !ctrlStripped c) = _
  apply List.filter_congr
  intro c _
  have hiff : ctrlStripped c = true ↔
      (c.toNat ≤ 8 ∨ c.toNat = 0x0B ∨ c.toNat = 0x0C ∨
        (0x0E ≤ c.toNat ∧ c.toNat ≤ 0x1F)) := by
    simp only [ctrlStripped, Bool.or_eq_true, Bool.and_eq_true,
      decide_eq_true_eq, beq_iff_eq]
    tauto
  by_cases h : c.toNat < 0x20 ∧ c.toNat ≠ 0x09 ∧ c.toNat ≠ 0x0A ∧ c.toNat ≠ 0x0D
  · have hl : ctrlStripped c = true := hiff.mpr (by omega)
    simp [hl, h]
  · have hl : ctrlStripped c = false := by
      rw [← Bool.not_eq_true, hiff]
      omega
    simp [hl, h]

/-! ### clean_report_text (gao_bid_protests.py:46-65) -/

def isUpperAZ (c : Char) : Bool := decide (65 ≤ c.toNat) && decide (c.toNat ≤ 90)

def isDigitC (c : Char) : Bool := decide (48 ≤ c.toNat) && decide (c.toNat ≤ 57)

def isAZ09 (c : Char) : Bool := isUpperAZ c || isDigitC c

/-- ASCII lowering, modelling `re.IGNORECASE` comparison. -/
def lowerChar (c : Char) : Char :=
  if 65 ≤ c.toNat ∧ c.toNat ≤ 90 then Char.ofNat (c.toNat + 32) else c

/-- ASCII `str.upper()` on one character. -/
def upperChar (c : Char) : Char :=
  if 97 ≤ c.toNat ∧ c.toNat ≤ 122 then Char.ofNat (c.toNat - 32) else c

/-- `str.upper()` (ASCII). -/
def pyUpper (l : Str) : Str := l.map upperChar

/-- `txt.split("\n")` -/
def splitOnNL : Str → List Str
  | [] => [[]]
  | c :: rest =>
    match splitOnNL rest with
    | [] => [[c]]
    | x :: xs => if c = '\n' then [] :: x :: xs else (c :: x) :: xs

/-- `"\n".join(lines)` -/
def joinNL : List Str → Str
  | [] => []
  | [x] => x
  | x :: xs => x ++ '\n' :: joinNL xs

def startsWith (pre l : Str) : Bool := l.take pre.length == pre

/-- `^Page\s+\d+\s*$` on a lowered line (pattern 7 of `drop_patterns`). -/
def pageFooter (low : Str) : Bool :=
  startsWith "page".data low &&
  (let r := low.drop 4
   let w := r.takeWhile pyWS
   let d := (r.dropWhile pyWS).takeWhile isDigitC
   decide (1 ≤ w.length) && decide (1 ≤ d.length) &&
     ((r.dropWhile pyWS).dropWhile isDigitC).all pyWS)

/-- `^B-\d{4,7}(\.\d+)?\s*$` on a lowered line (pattern 8): the digit run
must have length 4-7 (a longer run leaves a digit that neither the optional
group nor `\s*$` can match), the optional `\.\d+` is taken exactly when a
dot directly followed by a digit is present, and the remainder must be
whitespace. -/
def bareDocket (low : Str) : Bool :=
  startsWith "b-".data low &&
  (let ds := (low.drop 2).takeWhile isDigitC
   let rest := (low.drop 2).dropWhile isDigitC
   decide (4 ≤ ds.length) && decide (ds.length ≤ 7) &&
   (match rest with
    | '.' :: r2 =>
      decide (1 ≤ (r2.takeWhile isDigitC).length) &&
        (r2.dropWhile isDigitC).all pyWS
    | r => r.all pyWS))

/-- `^\s*CH+\s*$`-shaped separator alternative with repeat character `ch`
and minimum run length `n` (pattern 9). -/
def sepRun (ch : Char) (n : Nat) (low : Str) : Bool :=
  let r := low.dropWhile pyWS
  decide (n ≤ (r.takeWhile (fun c => c == ch)).length) &&
    (r.dropWhile (fun c => c == ch)).all pyWS

/-- `^U\.?S\.? Government Accountability Office$` (pattern 5). -/
def usgaoLine (low : Str) : Bool :=
  match low with
  | 'u' :: r1 =>
    (match if r1.head? == some '.' then r1.tail else r1 with
     | 's' :: r3 =>
       (if r3.head? == some '.' then r3.tail else r3) ==
         " government accountability office".data
     | _ => false)
  | _ => false

/-- `\b` after a word character: the next character is absent or not a word
character. -/
def atWordBreak (l : Str) : Bool :=
  match l with
  | [] => true
  | c :: _ => !wordChar c

/-- `drop_rx.search(l)` for one (already `rstrip`-ed) line: the alternation
of the nine anchored `drop_patterns`, compiled with `re.IGNORECASE` (hence
the comparison on the ASCII-lowered line). -/
def dropMatch (l : Str) : Bool :=
  let low := l.map lowerChar
  low == "441 g st. n.w.".data ||
  (startsWith "washington, dc".data low && atWordBreak (low.drop 14)) ||
  (startsWith "comptroller general".data low && atWordBreak (low.drop 19)) ||
  low == "of the united states".data ||
  usgaoLine low ||
  low == "www.gao.gov".data ||
  pageFooter low ||
  bareDocket low ||
  sepRun '~' 1 low || sepRun '–' 1 low || sepRun '-' 2 low

/-- `[l.rstrip() for l in txt.split("\n")]` -/
def rstrippedLines (txt : Str) : List Str := (splitOnNL txt).map rstrip

/-- `[l for l in lines if not drop_rx.search(l)]` -/
def keptLines (txt : Str) : List Str :=
  (rstrippedLines txt).filter (fun l => !dropMatch l)

/-- The matcher of `re.sub(r"\n\s*B-\d{4,7}(\.\d+)?\s*\n", "\n", txt2)` at a
position right after a leading `'\n'`: consume `\s*` up to the `B`, the
docket number, then the trailing `\s*\n` whose greedy `\s*` ends at the last
newline of the following whitespace run.  Returns the remainder after that
final newline when the pattern matches. -/
def docketAfterNL (rest : Str) : Option Str :=
  match rest.dropWhile pyWS with
  | 'B' :: '-' :: r2 =>
    let ds := r2.takeWhile isDigitC
    let r3 := r2.dropWhile isDigitC
    if 4 ≤ ds.length ∧ ds.length ≤ 7 then
      match (match r3 with
             | '.' :: r5 =>
               if 1 ≤ (r5.takeWhile isDigitC).length
               then some (r5.dropWhile isDigitC) else none
             | r => some r) with
      | none => none
      | some r6 =>
        let w := r6.takeWhile pyWS
        if w.any (fun c => c == '\n') then
          some ((w.reverse.takeWhile (fun c => !(c == '\n'))).reverse ++
            r6.dropWhile pyWS)
        else none
    else none
  | _ => none

/-- Scanner of the second substitution: non-overlapping left-to-right; a
match is replaced by a single newline and scanning resumes after the
consumed final newline.  Fuel as in `dehyphGo`. -/
def docketSubGo : Nat → Str → Str
  | 0, l => l
  | _, [] => []
  | fuel + 1, c :: rest =>
    if c = '\n' then
      match docketAfterNL rest with
      | some rest2 => '\n' :: docketSubGo fuel rest2
      | none => c :: docketSubGo fuel rest
    else c :: docketSubGo fuel rest

/-- `clean_report_text` (gao_bid_protests.py:46-65). -/
def cleanReportText (txt : Str) : Str :=
  if txt = [] then []
  else
    let txt2 := joinNL (keptLines txt)
    normalizeText (docketSubGo (txt2.length + 1) txt2)


/-! ### split_sections (gao_bid_protests.py:67-101) -/

def KNOWN_ORDER : List Str :=
  ["DIGEST".data, "BACKGROUND".data, "DISCUSSION".data, "DECISION".data,
   "CONCLUSION".data, "RECOMMENDATION".data, "CONCLUSIONS".data,
   "RECOMMENDATIONS".data]

/-- `(?m)^` holds at position `q`. -/
def isLineStart (ft : Str) (q : Nat) : Bool :=
  q == 0 || (ft[q-1]? == some '\n')

/-- The literal `lit` occurs at position `q`. -/
def matchLit (ft : Str) (q : Nat) (lit : Str) : Bool :=
  (ft.drop q).take lit.length == lit

/-- `(?m)$` holds at the start of the given suffix. -/
def atDollarL : Str → Bool
  | [] => true
  | c :: _ => c == '\n'

/-- Greedy `\s*$` on a suffix: the largest `k` such that the first `k`
characters are whitespace and `$` holds after them; `none` when the
pattern cannot match. -/
def wsDollarEnd : Str → Option Nat
  | [] => some 0
  | c :: rest =>
    if pyWS c then
      match wsDollarEnd rest with
      | some k => some (k + 1)
      | none => if c = '\n' then some 0 else none
    else none

def wsThenDollar (l : Str) : Bool := (wsDollarEnd l).isSome

/-- The bracket class of `CAPS_LINE`: `[A-Z0-9\s’'()/\-,.:;]`. -/
def capsClass (c : Char) : Bool :=
  isAZ09 c || pyWS c || c == '’' || c == Char.ofNat 39 || c == '(' ||
  c == ')' || c == '/' || c == '-' || c == ',' || c == '.' || c == ':' ||
  c == ';'

/-- Greedy `[class]{0,b}` followed by `$`: the largest `m ≤ b` such that the
first `m` characters are in the class and `$` holds after them (the regex
`{3,40}` backtracks from the longest such consumption; the caller checks
`3 ≤ m`). -/
def greedyClassDollar : Nat → Str → Option Nat
  | _, [] => some 0
  | 0, l => if atDollarL l then some 0 else none
  | b + 1, c :: rest =>
    if capsClass c then
      match greedyClassDollar b rest with
      | some m => some (m + 1)
      | none => if atDollarL (c :: rest) then some 0 else none
    else if atDollarL (c :: rest) then some 0 else none

/-- The pattern `(?m)^h\s*$` matches at position `q`. -/
def knownMatchAt (ft hname : Str) (q : Nat) : Bool :=
  isLineStart ft q && matchLit ft q hname &&
    wsThenDollar ((ft.drop q).drop hname.length)

/-- `re.search(fr"(?m)^{re.escape(h)}\s*$", ft)` scan: first position `q ≥`
the given start that is a line start where the heading matches.  Fuel as in
`dehyphGo`. -/
def knownFindGo (ft hname : Str) : Nat → Nat → Option Nat
  | 0, _ => none
  | fuel + 1, q =>
    if decide (ft.length < q) then none
    else if knownMatchAt ft hname q then some q
    else knownFindGo ft hname fuel (q + 1)

def findKnown (ft hname : Str) : Option Nat :=
  knownFindGo ft hname (ft.length + 1) 0

/-- The `for h in KNOWN_ORDER` loop filling `found_positions`. -/
def knownHits (ft : Str) : List (Str × Nat) :=
  KNOWN_ORDER.filterMap (fun hname => (findKnown ft hname).map (fun p => (hname, p)))

/-- One attempt of `CAPS_LINE` at position `q`: a match requires `(?m)^`,
a first character in `[A-Z0-9]`, then the greedy `[class]{3,40}$`.  Returns
`some (cap.strip(), matchEnd)` on success. -/
def capsTryAt (ft : Str) (q : Nat) : Option (Str × Nat) :=
  if isLineStart ft q then
    match ft[q]? with
    | some c =>
      if isAZ09 c then
        match greedyClassDollar 40 (ft.drop (q + 1)) with
        | some m =>
          if 3 ≤ m then some (pyStrip ((ft.drop q).take (1 + m)), q + 1 + m)
          else none
        | none => none
      else none
    | none => none
  else none

/-- `re.finditer(CAPS_LINE, ft)` together with the body of the `for m in`
loop: each match contributes `(cap.strip(), m.start())` when it passes the
all-caps and artifact-line filters; scanning resumes at the match end. -/
def capsScanGo (ft : Str) : Nat → Nat → List (Str × Nat)
  | 0, _ => []
  | fuel + 1, q =>
    if decide (ft.length < q) then []
    else
      match capsTryAt ft q with
      | some (name, e) =>
        (if pyUpper name == name && !(name == "U N I T E D  S T A T E S".data)
         then [(name, q)] else []) ++ capsScanGo ft fuel e
      | none => capsScanGo ft fuel (q + 1)

def capsHits (ft : Str) : List (Str × Nat) := capsScanGo ft (ft.length + 1) 0

/-- `found_positions.setdefault(...)` over a stream of candidates. -/
def setdefaultFold (init : List (Str × Nat)) (l : List (Str × Nat)) :
    List (Str × Nat) :=
  l.foldl (fun acc e => if acc.any (fun e2 => e2.1 == e.1) then acc
    else acc ++ [e]) init

def foundPositions (ft : Str) : List (Str × Nat) :=
  setdefaultFold (knownHits ft) (capsHits ft)

/-- Stable insertion for `sorted(found_positions.items(), key=pos)`. -/
def insertByPos (x : Str × Nat) : List (Str × Nat) → List (Str × Nat)
  | [] => [x]
  | y :: ys => if x.2 ≤ y.2 then x :: y :: ys else y :: insertByPos x ys

def sortByPos : List (Str × Nat) → List (Str × Nat)
  | [] => []
  | x :: xs => insertByPos x (sortByPos xs)

def orderedNames (ft : Str) : List Str := (sortByPos (foundPositions ft)).map Prod.fst

/-- The alternation `^(h1|h2|...)\s*$` tried at position `q`: alternatives
in list order, each requiring the literal followed by `\s*$`. Returns the
matched name and the match end. -/
def tryNames (ft : Str) (q : Nat) : List Str → Option (Str × Nat)
  | [] => none
  | n :: rest =>
    if matchLit ft q n then
      match wsDollarEnd ((ft.drop q).drop n.length) with
      | some k => some (n, q + n.length + k)
      | none => tryNames ft q rest
    else tryNames ft q rest

/-- `rx.finditer(ft)` with the mark tuple `(m.group(0).strip(), m.start(),
m.end())`; non-overlapping scanning resumes at the match end. -/
def rxScanGo (names : List Str) (ft : Str) : Nat → Nat → List (Str × Nat × Nat)
  | 0, _ => []
  | fuel + 1, q =>
    if decide (ft.length < q) then []
    else if isLineStart ft q then
      match tryNames ft q names with
      | some (n, e) =>
        (pyStrip ((ft.drop q).take (e - q)), q, e) ::
          rxScanGo names ft fuel (if q < e then e else q + 1)
      | none => rxScanGo names ft fuel (q + 1)
    else rxScanGo names ft fuel (q + 1)

def marksOf (ft : Str) : List (Str × Nat × Nat) :=
  rxScanGo (orderedNames ft) ft (ft.length + 1) 0

/-- The final `for i, (name, st, en) in enumerate(marks)` loop: each body
runs from a mark's end to the next mark's start (or the end of text). -/
def bodiesList (ft : Str) : List (Str × Nat × Nat) → List (Str × Str)
  | [] => []
  | (n, _, en) :: rest =>
    (n, pyStrip ((ft.drop en).take
      ((match rest with
        | [] => ft.length
        | (_, st2, _) :: _ => st2) - en))) :: bodiesList ft rest

/-- Python dict assignment `out[name] = body`: replace in place if the key
exists, else append. -/
def upsert (acc : List (Str × Str)) (k v : Str) : List (Str × Str) :=
  if acc.any (fun e => e.1 == k) then
    acc.map (fun e => if e.1 == k then (k, v) else e)
  else acc ++ [(k, v)]

def sectionMap (ft : Str) : List (Str × Str) :=
  (bodiesList ft (marksOf ft)).foldl (fun acc e => upsert acc e.1 e.2) []

/-- `split_sections` (gao_bid_protests.py:79-101); the resulting mapping is
an insertion-ordered association list, like a Python dict. -/
def splitSections (t : Str) : List (Str × Str) :=
  let ft := normalizeText t
  if ft = [] then []
  else if foundPositions ft = [] then [("Full Report Text".data, ft)]
  else sectionMap ft

def lookupA (l : List (Str × Str)) (k : Str) : Option Str :=
  (l.find? (fun e => e.1 == k)).map Prod.snd

def lookupP (l : List (Str × Nat)) (k : Str) : Option Nat :=
  (l.find? (fun e => e.1 == k)).map Prod.snd

def keysA (l : List (Str × Str)) : List Str := l.map Prod.fst


/-! ### Claims C6, C5: fallback and first/last-occurrence semantics -/

/-- Claim C6: if the normalized text is empty, `split_sections` returns the
empty mapping; otherwise, if neither the known-vocabulary search nor the
generic all-caps scan yields any heading candidate, the result is exactly
the one-entry mapping from `"Full Report Text"` to the normalized text. -/
theorem splitSections_fallback (t : Str) :
    (normalizeText t = [] → splitSections t = []) ∧
    (normalizeText t ≠ [] → knownHits (normalizeText t) = [] →
      capsHits (normalizeText t) = [] →
      splitSections t = [("Full Report Text".data, normalizeText t)]) := by
  constructor
  · intro h
    simp only [splitSections, if_pos h]
  · intro hne hk hc
    have hfp : foundPositions (normalizeText t) = [] := by
      rw [foundPositions, hk, hc]
      rfl
    simp only [splitSections, if_neg hne, if_pos hfp]

/-- Witness for claim C6 at concrete inputs. -/
theorem splitSections_fallback_witness :
    splitSections "".data = [] ∧
    splitSections "hello world".data =
      [("Full Report Text".data, "hello world".data)] :=
  ⟨(splitSections_fallback "".data).1 (by decide),
   by
     have h := (splitSections_fallback "hello world".data).2
       (by decide) (by decide) (by decide)
     rw [h]
     decide⟩

lemma lookupP_setdefaultFold : ∀ (l init : List (Str × Nat)) (k : Str),
    lookupP (setdefaultFold init l) k =
      ((init ++ l).find? (fun e => e.1 == k)).map Prod.snd := by
  intro l
  induction l with
  | nil => intro init k; simp [setdefaultFold, lookupP]
  | cons e rest ih =>
    intro init k
    have hstep : setdefaultFold init (e :: rest) =
        setdefaultFold (if init.any (fun e2 => e2.1 == e.1) then init
          else init ++ [e]) rest := by
      simp [setdefaultFold, List.foldl_cons]
    rw [hstep]
    by_cases hany : init.any (fun e2 => e2.1 == e.1)
    · rw [if_pos hany, ih]
      congr 1
      rw [List.find?_append, List.find?_append]
      by_cases hk : e.1 = k
      · have : (init.find? (fun e2 => e2.1 == k)).isSome := by
          rw [List.find?_isSome]
          obtain ⟨x, hx, hxk⟩ := List.any_eq_true.mp hany
          exact ⟨x, hx, by rw [beq_iff_eq] at hxk ⊢; rw [hxk, hk]⟩
        obtain ⟨v, hv⟩ := Option.isSome_iff_exists.mp this
        rw [hv]
        simp
      · have : (e :: rest).find? (fun e2 => e2.1 == k) =
            rest.find? (fun e2 => e2.1 == k) := by
          rw [List.find?_cons_of_neg _ (by simp [hk])]
        rw [this]
    · rw [if_neg hany, ih]
      congr 1
      rw [List.append_assoc]
      rfl

lemma lookupA_map_update_same (acc : List (Str × Str)) (k v : Str)
    (hany : acc.any (fun e => e.1 == k)) :
    lookupA (acc.map (fun e => if e.1 == k then (k, v) else e)) k = some v := by
  induction acc with
  | nil => simp at hany
  | cons e rest ih =>
    by_cases he : e.1 = k
    · simp only [List.map_cons, if_pos (by simp [he] : (e.1 == k) = true)]
      rw [lookupA, List.find?_cons_of_pos _ (by simp)]
      rfl
    · have hr : rest.any (fun e2 => e2.1 == k) := by
        rcases List.any_eq_true.mp hany with ⟨x, hx, hxk⟩
        rcases List.mem_cons.mp hx with rfl | hx'
        · exact absurd (by simpa using hxk) he
        · exact List.any_eq_true.mpr ⟨x, hx', hxk⟩
      simp only [List.map_cons, if_neg (by simp [he] : ¬(e.1 == k) = true)]
      rw [lookupA, List.find?_cons_of_neg _ (by simp [he])]
      exact ih hr

lemma lookupA_map_update_other (acc : List (Str × Str)) (k v k' : Str)
    (h : k' ≠ k) :
    lookupA (acc.map (fun e => if e.1 == k then (k, v) else e)) k' =
      lookupA acc k' := by
  induction acc with
  | nil => rfl
  | cons e rest ih =>
    by_cases he : e.1 = k
    · simp only [List.map_cons, if_pos (by simp [he] : (e.1 == k) = true)]
      rw [lookupA, List.find?_cons_of_neg _ (by simp [Ne.symm h]),
        lookupA, List.find?_cons_of_neg _ (by simp [he, Ne.symm h])]
      exact ih
    · simp only [List.map_cons, if_neg (by simp [he] : ¬(e.1 == k) = true)]
      by_cases he' : e.1 = k'
      · rw [lookupA, List.find?_cons_of_pos _ (by simp [he']),
          lookupA, List.find?_cons_of_pos _ (by simp [he'])]
      · rw [lookupA, List.find?_cons_of_neg _ (by simp [he']),
          lookupA, List.find?_cons_of_neg _ (by simp [he'])]
        exact ih

lemma lookupA_append_single (acc : List (Str × Str)) (k v k' : Str) :
    lookupA (acc ++ [(k, v)]) k' =
      if k' = k then (lookupA acc k').or (some v) else lookupA acc k' := by
  rw [lookupA, List.find?_append]
  by_cases hk : k' = k
  · rw [if_pos hk, List.find?_cons_of_pos _ (by simp [hk]), lookupA]
    rcases hfind : acc.find? (fun e => e.1 == k') with _ | e <;> rw [hfind] <;> simp
  · rw [if_neg hk, List.find?_cons_of_neg _ (by simp [Ne.symm hk])]
    simp [lookupA]

lemma lookupA_upsert_same (acc : List (Str × Str)) (k v : Str) :
    lookupA (upsert acc k v) k = some v := by
  rw [upsert]
  by_cases hany : acc.any (fun e => e.1 == k)
  · rw [if_pos hany]
    exact lookupA_map_update_same acc k v hany
  · rw [if_neg hany, lookupA_append_single, if_pos rfl]
    have hnone : lookupA acc k = none := by
      rw [lookupA]
      have : acc.find? (fun e => e.1 == k) = none := by
        rw [List.find?_eq_none]
        intro x hx hxk
        exact hany (List.any_eq_true.mpr ⟨x, hx, hxk⟩)
      rw [this]
      rfl
    rw [hnone]
    rfl

lemma lookupA_upsert_other (acc : List (Str × Str)) (k v k' : Str) (h : k' ≠ k) :
    lookupA (upsert acc k v) k' = lookupA acc k' := by
  rw [upsert]
  by_cases hany : acc.any (fun e => e.1 == k)
  · rw [if_pos hany]
    exact lookupA_map_update_other acc k v k' h
  · rw [if_neg hany, lookupA_append_single, if_neg h]

lemma lookupA_foldl_upsert (l : List (Str × Str)) (init : List (Str × Str)) (k : Str) :
    lookupA (l.foldl (fun acc e => upsert acc e.1 e.2) init) k =
      ((l.reverse.find? (fun e => e.1 == k)).map Prod.snd).or (lookupA init k) := by
  induction l using List.reverseRecOn generalizing init with
  | nil => simp
  | append_singleton xs e ih =>
    rw [List.foldl_append, List.foldl_cons, List.foldl_nil, List.reverse_append]
    simp only [List.reverse_cons, List.reverse_nil, List.nil_append,
      List.singleton_append]
    by_cases hk : e.1 = k
    · subst hk
      rw [List.find?_cons_of_pos _ (by simp), lookupA_upsert_same]
      rfl
    · rw [List.find?_cons_of_neg _ (by simp [hk]),
        lookupA_upsert_other _ _ _ _ (fun hh => hk hh.symm), ih]

/-- Claim C5: in `split_sections`, a candidate's recorded position is the
one of its first occurrence in the candidate stream (known-vocabulary hits
followed by generic all-caps hits, in encounter order — `setdefault`
semantics), while the final mapping's value at a heading name is the body
following the *last* mark carrying that name (later bodies overwrite
earlier ones under the same key). -/
theorem splitSections_first_position_last_body (ft n : Str) :
    lookupP (foundPositions ft) n =
      ((knownHits ft ++ capsHits ft).find? (fun e => e.1 == n)).map Prod.snd ∧
    lookupA (sectionMap ft) n =
      ((bodiesList ft (marksOf ft)).reverse.find? (fun e => e.1 == n)).map
        Prod.snd := by
  constructor
  · rw [foundPositions]
    exact lookupP_setdefaultFold (capsHits ft) (knownHits ft) n
  · rw [sectionMap, lookupA_foldl_upsert]
    simp [lookupA]

/-! ### Claim C4: the generic heading-candidate test -/

lemma greedyClassDollar_no_nl : ∀ (t : Str), '\n' ∉ t → ∀ b : Nat,
    greedyClassDollar b t =
      if t.length ≤ b ∧ t.all capsClass then some t.length else none := by
  intro t
  induction t with
  | nil => intro _ b; simp [greedyClassDollar]
  | cons c rest ih =>
    intro hnl b
    have hc : c ≠ '\n' := fun h => hnl (h ▸ List.mem_cons_self c rest)
    have hrest : '\n' ∉ rest := fun h => hnl (List.mem_cons_of_mem c h)
    rcases b with _ | b'
    · simp only [greedyClassDollar, atDollarL]
      rw [if_neg (by simp [hc]), if_neg (by simp)]
    · simp only [greedyClassDollar]
      by_cases hcl : capsClass c
      · rw [if_pos hcl, ih hrest b']
        by_cases hcond : rest.length ≤ b' ∧ rest.all capsClass
        · rw [if_pos hcond]
          have hcc : (c :: rest).length ≤ b' + 1 ∧ (c :: rest).all capsClass = true := by
            refine ⟨by simp only [List.length_cons]; omega, ?_⟩
            rw [List.all_cons, hcl, hcond.2]
            rfl
          rw [if_pos hcc]
          simp
        · rw [if_neg hcond]
          simp only [atDollarL]
          rw [if_neg (by simp [hc]), if_neg]
          rintro ⟨h1, h2⟩
          rw [List.length_cons] at h1
          rw [List.all_cons, Bool.and_eq_true] at h2
          exact hcond ⟨by omega, h2.2⟩
      · rw [if_neg hcl]
        simp only [atDollarL]
        rw [if_neg (by simp [hc]), if_neg]
        rintro ⟨_, h2⟩
        rw [List.all_cons, Bool.and_eq_true] at h2
        exact absurd h2.1 (by simp [hcl])

lemma capsScanGo_succ_some {ft : Str} {q : Nat} {name : Str} {e : Nat}
    (h : capsTryAt ft q = some (name, e)) (hq : ¬ft.length < q) (fuel : Nat) :
    capsScanGo ft (fuel + 1) q =
      (if pyUpper name == name && !(name == "U N I T E D  S T A T E S".data)
       then [(name, q)] else []) ++ capsScanGo ft fuel e := by
  simp [capsScanGo, h, hq]

lemma capsScanGo_succ_none {ft : Str} {q : Nat}
    (h : capsTryAt ft q = none) (hq : ¬ft.length < q) (fuel : Nat) :
    capsScanGo ft (fuel + 1) q = capsScanGo ft fuel (q + 1) := by
  simp [capsScanGo, h, hq]

lemma capsTryAt_pos_no_nl (ft : Str) (hnl : '\n' ∉ ft) (q : Nat) (hq : 1 ≤ q) :
    capsTryAt ft q = none := by
  rw [capsTryAt, if_neg]
  rw [isLineStart]
  simp only [Bool.or_eq_true, beq_iff_eq, not_or]
  refine ⟨by omega, ?_⟩
  rcases hc : ft[q-1]? with _ | c
  · simp
  · have hmem : c ∈ ft := List.getElem?_mem hc
    have : c ≠ '\n' := fun h => hnl (h ▸ hmem)
    simp [this]

lemma capsScanGo_pos_no_nl (ft : Str) (hnl : '\n' ∉ ft) :
    ∀ (fuel q : Nat), 1 ≤ q → capsScanGo ft fuel q = [] := by
  intro fuel
  induction fuel with
  | zero => intro q _; rfl
  | succ f ih =>
    intro q hq
    by_cases hlt : ft.length < q
    · simp [capsScanGo, hlt]
    · rw [capsScanGo_succ_none (capsTryAt_pos_no_nl ft hnl q hq) hlt]
      exact ih (q + 1) (by omega)

lemma capsTryAt_zero_single_line (c : Char) (t : Str) (hnl : '\n' ∉ c :: t) :
    capsTryAt (c :: t) 0 =
      if isAZ09 c = true ∧ t.all capsClass = true ∧ 3 ≤ t.length ∧ t.length ≤ 40
      then some (pyStrip (c :: t), 1 + t.length) else none := by
  have hnlt : '\n' ∉ t := fun h => hnl (List.mem_cons_of_mem c h)
  rw [capsTryAt, if_pos (by simp [isLineStart])]
  rw [show (c :: t)[0]? = some c from List.getElem?_cons_zero]
  show (if isAZ09 c then _ else _) = _
  by_cases hA : isAZ09 c
  · rw [if_pos hA]
    rw [show (c :: t).drop (0 + 1) = t by simp]
    rw [greedyClassDollar_no_nl t hnlt 40]
    by_cases hcond : t.length ≤ 40 ∧ t.all capsClass
    · rw [if_pos hcond]
      show (if 3 ≤ t.length then _ else _) = _
      by_cases h3 : 3 ≤ t.length
      · rw [if_pos h3, if_pos ⟨hA, hcond.2, h3, hcond.1⟩]
        rw [show (c :: t).drop 0 = c :: t from rfl]
        rw [List.take_of_length_le (by simp; omega)]
      · rw [if_neg h3, if_neg (fun hh => h3 hh.2.2.1)]
    · rw [if_neg hcond]
      show none = _
      rw [if_neg (fun hh => hcond ⟨hh.2.2.2, hh.2.1⟩)]
  · rw [if_neg hA, if_neg (fun hh => hA hh.1)]

lemma capsHits_single_line (c : Char) (t : Str) (hnl : '\n' ∉ c :: t) :
    capsHits (c :: t) =
      if isAZ09 c = true ∧ t.all capsClass = true ∧ 3 ≤ t.length ∧
          t.length ≤ 40 ∧ pyUpper (pyStrip (c :: t)) = pyStrip (c :: t) ∧
          pyStrip (c :: t) ≠ "U N I T E D  S T A T E S".data
      then [(pyStrip (c :: t), 0)] else [] := by
  rw [capsHits]
  by_cases hcore : isAZ09 c = true ∧ t.all capsClass = true ∧ 3 ≤ t.length ∧
      t.length ≤ 40
  · rw [@capsScanGo_succ_some (c :: t) 0 (pyStrip (c :: t)) (1 + t.length)
      (by rw [capsTryAt_zero_single_line c t hnl, if_pos hcore])
      (by omega) ((c :: t).length)]
    rw [capsScanGo_pos_no_nl (c :: t) hnl _ (1 + t.length) (by omega)]
    by_cases hup : pyUpper (pyStrip (c :: t)) = pyStrip (c :: t)
    · by_cases hart : pyStrip (c :: t) = "U N I T E D  S T A T E S".data
      · rw [if_neg (by simp [hart]), if_neg (fun hh => hh.2.2.2.2.2 hart)]
        rfl
      · rw [if_pos (by simp [hup, hart]),
          if_pos ⟨hcore.1, hcore.2.1, hcore.2.2.1, hcore.2.2.2, hup, hart⟩]
        rfl
    · rw [if_neg (by simp [hup]), if_neg (fun hh => hup hh.2.2.2.2.1)]
      rfl
  · rw [capsScanGo_succ_none
      (by rw [capsTryAt_zero_single_line c t hnl, if_neg hcore]) (by omega)]
    rw [capsScanGo_pos_no_nl (c :: t) hnl _ 1 (by omega)]
    rw [if_neg (fun hh => hcore ⟨hh.1, hh.2.1, hh.2.2.1, hh.2.2.2.1⟩)]

/-- Claim C4 (amended): a standalone line (a text without newlines) is
accepted as a generic heading candidate by the `CAPS_LINE` scan iff it
consists of a first character in `[A-Z0-9]` followed by characters of the
limited class, is 4 to **41** characters long (`[A-Z0-9][...]{3,40}` allows
one more character than the claimed 40), equals its own uppercasing after
stripping, and is not the known false-positive artifact line. -/
lemma capsHits_nil : capsHits [] = [] := by decide

theorem capsLine_acceptance_iff (l : Str) (hnl : '\n' ∉ l) :
    capsHits l ≠ [] ↔
      (4 ≤ l.length ∧ l.length ≤ 41 ∧
        (∃ c t, l = c :: t ∧ isAZ09 c = true ∧ t.all capsClass = true) ∧
        pyUpper (pyStrip l) = pyStrip l ∧
        pyStrip l ≠ "U N I T E D  S T A T E S".data) := by
  rcases l with _ | ⟨c, t⟩
  · rw [capsHits_nil]
    simp
  · rw [capsHits_single_line c t hnl]
    by_cases hcond : isAZ09 c = true ∧ t.all capsClass = true ∧ 3 ≤ t.length ∧
        t.length ≤ 40 ∧ pyUpper (pyStrip (c :: t)) = pyStrip (c :: t) ∧
        pyStrip (c :: t) ≠ "U N I T E D  S T A T E S".data
    · rw [if_pos hcond]
      constructor
      · intro _
        refine ⟨by simp only [List.length_cons]; omega,
          by simp only [List.length_cons]; omega,
          ⟨c, t, rfl, hcond.1, hcond.2.1⟩, hcond.2.2.2.2.1, hcond.2.2.2.2.2⟩
      · intro _
        simp
    · rw [if_neg hcond]
      constructor
      · intro hne
        exact absurd rfl hne
      · rintro ⟨h4, h41, ⟨c', t', heq, hc', ht'⟩, hup, hart⟩
        injection heq with h1 h2
        subst h1
        subst h2
        rw [List.length_cons] at h4 h41
        have h3 : 3 ≤ t.length := by omega
        have h40 : t.length ≤ 40 := by omega
        exact (hcond ⟨hc', ht', h3, h40, hup, hart⟩).elim

/-- Witness for the amended claim C4 at a concrete line. -/
theorem capsLine_acceptance_witness :
    capsHits "BACKGROUND".data ≠ [] :=
  (capsLine_acceptance_iff "BACKGROUND".data (by decide)).mpr
    ⟨by decide, by decide, ⟨'B', "ACKGROUND".data, rfl, by decide, by decide⟩,
      by decide, by decide⟩

/-- Claim C4 counterexample: a standalone all-caps line of 41 characters —
longer than the claimed maximum of 40 — is accepted as a generic heading
candidate and indeed becomes a section heading of `split_sections`. -/
theorem capsLine_41_char_counterexample :
    40 < (List.replicate 41 'A').length ∧
    capsHits (List.replicate 41 'A') = [(List.replicate 41 'A', 0)] ∧
    splitSections (List.replicate 41 'A') = [(List.replicate 41 'A', [])] := by
  refine ⟨by decide, by decide, by decide⟩

/-- Claim C8 counterexample: in `"FOO\nDISCUSSION"` the standalone line
`DISCUSSION` survives `clean_report_text` unchanged, yet it does not become
a heading key of `split_sections`: the `\s` inside `CAPS_LINE`'s bracket
class matches the newline, so the generic candidate `"FOO\nDISCUSSION"`
spans both lines and its alternation match swallows the `DISCUSSION`
line. -/
theorem discussion_swallowed_counterexample :
    cleanReportText "FOO\nDISCUSSION".data = "FOO\nDISCUSSION".data ∧
    "DISCUSSION".data ∈ splitOnNL (cleanReportText "FOO\nDISCUSSION".data) ∧
    "DISCUSSION".data ∉
      keysA (splitSections (cleanReportText "FOO\nDISCUSSION".data)) := by
  refine ⟨by decide, by decide, by decide⟩

/-! ### Crawler and pipeline driver (gao_bid_protests.py:183-206, 240-258,
344-394) -/

/-- An anchor inside the page's main content region; `text` is
`a.get_text(strip=True)`. -/
structure Anchor where
  href : Str
  text : Str
deriving DecidableEq

/-- A parsed result-index page.  HTML parsing is abstracted: `anchors` are
the anchors of the main content region (the CSS pre-filter
`a[href*='/products/']` is subsumed by the explicit containment re-check in
`collect_result_links_from_page`), `nextHref` the href selected by
`get_next_page`. -/
structure PageSoup where
  anchors : List Anchor
  nextHref : Option Str
deriving DecidableEq

def containsSub (needle hay : Str) : Bool :=
  (List.range (hay.length + 1)).any fun i => (hay.drop i).take needle.length == needle

def SITE : Str := "https://www.gao.gov".data

def absolutize (href : Str) : Str :=
  if href.take 1 = "/".data then SITE ++ href else href

/-- The loop body of `collect_result_links_from_page` (lines 187-194): note
that the membership test uses the *raw* href while `seen.add` stores the
*absolutized* href — exactly as in the source. -/
def collectGo : List Anchor → List Str → List Str → List Str
  | [], _, acc => acc
  | a :: rest, seen, acc =>
    if a.href ≠ [] ∧ containsSub "/products/".data a.href = true ∧
        a.text ≠ [] ∧ a.href ∉ seen then
      collectGo rest (seen ++ [absolutize a.href]) (acc ++ [absolutize a.href])
    else collectGo rest seen acc

def collectResultLinks (p : PageSoup) : List Str := collectGo p.anchors [] []

/-- `get_next_page` (lines 197-206), with the anchor selection abstracted
into `nextHref`. -/
def getNextPage (p : PageSoup) : Option Str :=
  match p.nextHref with
  | none => none
  | some h => if h = [] then none else some (absolutize h)

/-- Claim C3, evaluation at the failing input: a page carrying the same
relative product href twice.  Because `seen` stores the absolutized href
while the membership test uses the raw href, the second anchor is not
de-duplicated and the same absolute URL is returned twice. -/
theorem collectResultLinks_duplicate_eval :
    collectResultLinks
      ⟨[⟨"/products/x".data, "A".data⟩, ⟨"/products/x".data, "B".data⟩], none⟩ =
      ["https://www.gao.gov/products/x".data,
       "https://www.gao.gov/products/x".data] ∧
    ¬(collectResultLinks
      ⟨[⟨"/products/x".data, "A".data⟩, ⟨"/products/x".data, "B".data⟩],
        none⟩).Nodup := by
  refine ⟨by decide, by decide⟩

/-- The extraction results of one document page: `get_title_file_date_from_doc`
and `extract_expanded_decision_text` are abstracted to the fields they
produce from the parsed HTML. -/
structure DocSoup where
  title : Str
  fileNumber : Str
  date : Str
  rawText : Str
deriving DecidableEq

/-- The record dict built by `scrape_item_with_bs` (base fields inlined). -/
structure DecisionRecord where
  url : Str
  title : Str
  file_number : Str
  date : Str
  pdf_pages : Option Nat
  full_text : Str
  sections : List (Str × Str)
deriving DecidableEq

def emptyRecord (url : Str) : DecisionRecord := ⟨url, [], [], [], none, [], []⟩

/-- The network oracle: `fetchIndex` stands for `get_html` plus HTML parsing
of a result-index page, `fetchDoc` for `get_html` plus the two extractors on
a document page; `none` models a fetch that failed all recovery attempts. -/
structure CrawlEnv where
  fetchIndex : Str → Option PageSoup
  fetchDoc : Str → Option DocSoup

/-- `scrape_item_with_bs` (gao_bid_protests.py:240-258). -/
def scrapeItem (fetchDoc : Str → Option DocSoup) (url : Str) : DecisionRecord :=
  match fetchDoc url with
  | none => ⟨url, [], [], [], none, [], []⟩
  | some s =>
    ⟨url, s.title, s.fileNumber, s.date, none,
      normalizeText (cleanReportText s.rawText),
      splitSections (cleanReportText s.rawText)⟩

/-- Driver-loop state: the accumulated records, the `processed` counter, the
trace of `write_outputs` snapshots (each snapshot is written to both the CSV
and the XLSX output), and the document URLs passed to
`scrape_item_with_bs`. -/
structure RunState where
  records : List DecisionRecord
  processed : Nat
  flushes : List (List DecisionRecord)
  docFetches : List Str
deriving DecidableEq

def initState : RunState := ⟨[], 0, [], []⟩

/-- The `for url in links` loop of `run` (lines 360-373): the budget check
`if upto and processed >= upto` precedes each document fetch and raises
`StopIteration` (the returned flag); otherwise the record is scraped,
appended, and the accumulated records flushed. -/
def processLinks (env : CrawlEnv) (upto : Nat) :
    List Str → RunState → RunState × Bool
  | [], st => (st, false)
  | url :: rest, st =>
    if upto ≠ 0 ∧ upto ≤ st.processed then (st, true)
    else
      processLinks env upto rest
        ⟨st.records ++ [scrapeItem env.fetchDoc url], st.processed + 1,
         st.flushes ++ [st.records ++ [scrapeItem env.fetchDoc url]],
         st.docFetches ++ [url]⟩

/-- The `while page_url` loop of `run` (lines 351-381).  Fuel bounds the
number of page iterations (the Python loop is unbounded when pages keep
linking onward); every other termination condition is modelled exactly:
fetch failure, empty link list, `StopIteration` from the budget, the
`max_pages` check after incrementing `page_num`, and a missing next link. -/
def crawlLoop (env : CrawlEnv) (upto maxPages : Nat) :
    Nat → Str → Nat → RunState → RunState
  | 0, _, _, st => st
  | fuel + 1, pageUrl, pageNum, st =>
    if pageUrl = [] then st
    else
      match env.fetchIndex pageUrl with
      | none => st
      | some page =>
        if collectResultLinks page = [] then st
        else
          match processLinks env upto (collectResultLinks page) st with
          | (st2, true) => st2
          | (st2, false) =>
            if maxPages ≠ 0 ∧ maxPages < pageNum + 1 then st2
            else
              match getNextPage page with
              | none => st2
              | some nxt => crawlLoop env upto maxPages fuel nxt (pageNum + 1) st2

/-- `run` (lines 344-394): the crawl followed by the final `write_outputs`
in the `finally` block. -/
def run (env : CrawlEnv) (upto maxPages fuel : Nat) (searchUrl : Str) : RunState :=
  let st := crawlLoop env upto maxPages fuel searchUrl 1 initState
  { st with flushes := st.flushes ++ [st.records] }

/-- The document URLs an unbudgeted crawl would discover, mirroring
`crawlLoop` page by page. -/
def linkStream (env : CrawlEnv) (maxPages : Nat) : Nat → Str → Nat → List Str
  | 0, _, _ => []
  | fuel + 1, pageUrl, pageNum =>
    if pageUrl = [] then []
    else
      match env.fetchIndex pageUrl with
      | none => []
      | some page =>
        if collectResultLinks page = [] then []
        else
          collectResultLinks page ++
            (if maxPages ≠ 0 ∧ maxPages < pageNum + 1 then []
             else
               match getNextPage page with
               | none => []
               | some nxt => linkStream env maxPages fuel nxt (pageNum + 1))

/-- The links actually fetched from one page under the budget. -/
def budgetTake (upto p : Nat) (links : List Str) : List Str :=
  if upto = 0 then links else links.take (upto - p)

lemma processLinks_spec (env : CrawlEnv) (upto : Nat) : ∀ (links : List Str)
    (st : RunState),
    (processLinks env upto links st).1.records =
      st.records ++ (budgetTake upto st.processed links).map (scrapeItem env.fetchDoc) ∧
    (processLinks env upto links st).1.docFetches =
      st.docFetches ++ budgetTake upto st.processed links ∧
    (processLinks env upto links st).1.processed =
      st.processed + (budgetTake upto st.processed links).length ∧
    ((processLinks env upto links st).2 = true ↔
      (upto ≠ 0 ∧ upto - st.processed < links.length)) := by
  intro links
  induction links with
  | nil =>
    intro st
    refine ⟨by simp [processLinks, budgetTake], by simp [processLinks, budgetTake],
      by simp [processLinks, budgetTake], ?_⟩
    simp [processLinks]
  | cons url rest ih =>
    intro st
    by_cases hstop : upto ≠ 0 ∧ upto ≤ st.processed
    · have hbt : budgetTake upto st.processed (url :: rest) = [] := by
        rw [budgetTake, if_neg hstop.1]
        rw [show upto - st.processed = 0 by omega]
        rfl
      rw [show processLinks env upto (url :: rest) st = (st, true) by
        rw [processLinks, if_pos hstop]]
      refine ⟨by simp [hbt], by simp [hbt], by simp [hbt], ?_⟩
      simp only [List.length_cons]
      constructor
      · intro _
        exact ⟨hstop.1, by omega⟩
      · intro _
        trivial
    · have hbt : budgetTake upto st.processed (url :: rest) =
          url :: budgetTake upto (st.processed + 1) rest := by
        rw [budgetTake, budgetTake]
        by_cases h0 : upto = 0
        · rw [if_pos h0, if_pos h0]
        · rw [if_neg h0, if_neg h0]
          have hlt : st.processed < upto := by
            rcases Nat.lt_or_ge st.processed upto with h | h
            · exact h
            · exact absurd ⟨h0, h⟩ hstop
          rw [show upto - st.processed = (upto - (st.processed + 1)) + 1 by omega]
          rfl
      rw [show processLinks env upto (url :: rest) st =
          processLinks env upto rest
            ⟨st.records ++ [scrapeItem env.fetchDoc url], st.processed + 1,
             st.flushes ++ [st.records ++ [scrapeItem env.fetchDoc url]],
             st.docFetches ++ [url]⟩ by
        rw [processLinks, if_neg hstop]]
      obtain ⟨ih1, ih2, ih3, ih4⟩ := ih
        ⟨st.records ++ [scrapeItem env.fetchDoc url], st.processed + 1,
         st.flushes ++ [st.records ++ [scrapeItem env.fetchDoc url]],
         st.docFetches ++ [url]⟩
      refine ⟨?_, ?_, ?_, ?_⟩
      · rw [ih1, hbt]
        simp
      · rw [ih2, hbt]
        simp
      · rw [ih3, hbt]
        simp only [List.length_cons]
        omega
      · rw [ih4]
        simp only [List.length_cons]
        by_cases h0 : upto = 0
        · simp [h0]
        · have hlt : st.processed < upto := by
            rcases Nat.lt_or_ge st.processed upto with h | h
            · exact h
            · exact absurd ⟨h0, h⟩ hstop
          constructor
          · rintro ⟨_, hl⟩
            exact ⟨h0, by omega⟩
          · rintro ⟨_, hl⟩
            exact ⟨h0, by omega⟩

lemma crawlLoop_records_eq_map (env : CrawlEnv) (upto maxPages : Nat) :
    ∀ (fuel : Nat) (pageUrl : Str) (pageNum : Nat) (st : RunState),
    st.records = st.docFetches.map (scrapeItem env.fetchDoc) →
    (crawlLoop env upto maxPages fuel pageUrl pageNum st).records =
      (crawlLoop env upto maxPages fuel pageUrl pageNum st).docFetches.map
        (scrapeItem env.fetchDoc) := by
  intro fuel
  induction fuel with
  | zero =>
    intro pageUrl pageNum st hst
    simp only [crawlLoop]
    exact hst
  | succ f ih =>
    intro pageUrl pageNum st hst
    by_cases hpu : pageUrl = []
    · simp only [crawlLoop, if_pos hpu]
      exact hst
    · simp only [crawlLoop, if_neg hpu]
      rcases hfi : env.fetchIndex pageUrl with _ | page
      · exact hst
      · by_cases hlk : collectResultLinks page = []
        · simp only [if_pos hlk]
          exact hst
        · simp only [if_neg hlk]
          obtain ⟨h1, h2, _, _⟩ := processLinks_spec env upto (collectResultLinks page) st
          have hst2 : (processLinks env upto (collectResultLinks page) st).1.records =
              (processLinks env upto (collectResultLinks page) st).1.docFetches.map
                (scrapeItem env.fetchDoc) := by
            rw [h1, h2, hst, List.map_append]
          rcases hpl : processLinks env upto (collectResultLinks page) st with ⟨st2, b⟩
          rw [hpl] at hst2
          rcases b
          · by_cases hmp : maxPages ≠ 0 ∧ maxPages < pageNum + 1
            · simp only [if_pos hmp]
              exact hst2
            · simp only [if_neg hmp]
              rcases hnp : getNextPage page with _ | nxt
              · exact hst2
              · exact ih nxt (pageNum + 1) st2 hst2
          · exact hst2

lemma crawlLoop_budget (env : CrawlEnv) (upto maxPages : Nat) (h0 : upto ≠ 0) :
    ∀ (fuel : Nat) (pageUrl : Str) (pageNum : Nat) (st : RunState),
    st.processed ≤ upto →
    (crawlLoop env upto maxPages fuel pageUrl pageNum st).docFetches =
      st.docFetches ++
        (linkStream env maxPages fuel pageUrl pageNum).take (upto - st.processed) ∧
    (crawlLoop env upto maxPages fuel pageUrl pageNum st).records =
      st.records ++
        ((linkStream env maxPages fuel pageUrl pageNum).take
          (upto - st.processed)).map (scrapeItem env.fetchDoc) ∧
    (crawlLoop env upto maxPages fuel pageUrl pageNum st).processed =
      st.processed +
        min (upto - st.processed) (linkStream env maxPages fuel pageUrl pageNum).length := by
  intro fuel
  induction fuel with
  | zero =>
    intro pageUrl pageNum st _
    simp only [crawlLoop, linkStream]
    refine ⟨by simp, by simp, by simp⟩
  | succ f ih =>
    intro pageUrl pageNum st hle
    by_cases hpu : pageUrl = []
    · simp only [crawlLoop, linkStream, if_pos hpu]
      refine ⟨by simp, by simp, by simp⟩
    · simp only [crawlLoop, linkStream, if_neg hpu]
      rcases hfi : env.fetchIndex pageUrl with _ | page
      · refine ⟨by simp, by simp, by simp⟩
      · by_cases hlk : collectResultLinks page = []
        · simp only [if_pos hlk]
          refine ⟨by simp, by simp, by simp⟩
        · simp only [if_neg hlk]
          obtain ⟨h1, h2, h3, h4⟩ :=
            processLinks_spec env upto (collectResultLinks page) st
          have hbt : budgetTake upto st.processed (collectResultLinks page) =
              (collectResultLinks page).take (upto - st.processed) := by
            rw [budgetTake, if_neg h0]
          rcases hpl : processLinks env upto (collectResultLinks page) st with ⟨st2, b⟩
          rw [hpl] at h1 h2 h3 h4
          simp only at h1 h2 h3 h4
          rcases b
          · -- no StopIteration: the whole page fitted in the budget
            have hfit : ¬(upto - st.processed < (collectResultLinks page).length) := by
              intro hcontra
              exact absurd (h4.mpr ⟨h0, hcontra⟩) (by simp)
            have htake : (collectResultLinks page).take (upto - st.processed) =
                collectResultLinks page :=
              List.take_of_length_le (by omega)
            have hp2 : st2.processed = st.processed + (collectResultLinks page).length := by
              rw [h3, hbt, htake]
            by_cases hmp : maxPages ≠ 0 ∧ maxPages < pageNum + 1
            · simp only [if_pos hmp]
              rw [List.append_nil]
              refine ⟨?_, ?_, ?_⟩
              · rw [h2, hbt]
              · rw [h1, hbt]
              · rw [h3, hbt]
                have := List.length_take (upto - st.processed) (collectResultLinks page)
                omega
            · simp only [if_neg hmp]
              rcases hnp : getNextPage page with _ | nxt
              · rw [List.append_nil]
                refine ⟨?_, ?_, ?_⟩
                · rw [h2, hbt]
                · rw [h1, hbt]
                · rw [h3, hbt]
                  have := List.length_take (upto - st.processed) (collectResultLinks page)
                  omega
              · have hle2 : st2.processed ≤ upto := by omega
                obtain ⟨ihd, ihr, ihp⟩ := ih nxt (pageNum + 1) st2 hle2
                have hrem : upto - st2.processed =
                    upto - st.processed - (collectResultLinks page).length := by
                  omega
                refine ⟨?_, ?_, ?_⟩
                · rw [ihd, h2, hbt, htake, hrem, List.take_append_eq_append_take,
                    htake, List.append_assoc]
                · rw [ihr, h1, hbt, htake, hrem, List.take_append_eq_append_take,
                    htake, List.map_append, List.append_assoc]
                · rw [ihp, hp2]
                  simp only [List.length_append]
                  omega
          · -- StopIteration: budget hit inside this page
            have hstop : upto - st.processed < (collectResultLinks page).length :=
              (h4.mp rfl).2
            have htake : (collectResultLinks page ++
                (if maxPages ≠ 0 ∧ maxPages < pageNum + 1 then []
                 else match getNextPage page with
                   | none => []
                   | some nxt => linkStream env maxPages f nxt (pageNum + 1))).take
                  (upto - st.processed) =
                (collectResultLinks page).take (upto - st.processed) :=
              List.take_append_of_le_length (by omega)
            rw [htake]
            refine ⟨by rw [h2, hbt], by rw [h1, hbt], ?_⟩
            rw [h3, hbt]
            have h5 := List.length_take (upto - st.processed) (collectResultLinks page)
            simp only [List.length_append]
            omega

/-- Claim C2: exactly one Decision Record per processed document URL, even
on total fetch failure.  When `get_html` returns no document, the record
built by `scrape_item_with_bs` carries the given url and empty title, file
number, date, full text and sections; the driver's record list is the image
of the fetched URLs under scraping (so failed fetches are appended like any
other), and the final flush of the `finally` block writes exactly the
accumulated records to both outputs. -/
theorem scrape_failure_record_and_completeness (env : CrawlEnv) (url : Str)
    (upto maxPages fuel : Nat) (searchUrl : Str)
    (hfail : env.fetchDoc url = none) :
    scrapeItem env.fetchDoc url = emptyRecord url ∧
    (run env upto maxPages fuel searchUrl).records =
      (run env upto maxPages fuel searchUrl).docFetches.map
        (scrapeItem env.fetchDoc) ∧
    (url ∈ (run env upto maxPages fuel searchUrl).docFetches →
      emptyRecord url ∈ (run env upto maxPages fuel searchUrl).records) ∧
    (run env upto maxPages fuel searchUrl).flushes.getLast? =
      some (run env upto maxPages fuel searchUrl).records := by
  have hp1 : scrapeItem env.fetchDoc url = emptyRecord url := by
    rw [scrapeItem, hfail]
    rfl
  have hp2 : (run env upto maxPages fuel searchUrl).records =
      (run env upto maxPages fuel searchUrl).docFetches.map
        (scrapeItem env.fetchDoc) := by
    show (crawlLoop env upto maxPages fuel searchUrl 1 initState).records =
      (crawlLoop env upto maxPages fuel searchUrl 1 initState).docFetches.map
        (scrapeItem env.fetchDoc)
    exact crawlLoop_records_eq_map env upto maxPages fuel searchUrl 1 initState rfl
  refine ⟨hp1, hp2, ?_, ?_⟩
  · intro hmem
    rw [hp2, ← hp1]
    exact List.mem_map_of_mem _ hmem
  · show (List.getLast? (_ ++ [(crawlLoop env upto maxPages fuel searchUrl 1
      initState).records])) = _
    rw [List.getLast?_concat]
    rfl

def testFailEnv : CrawlEnv :=
  ⟨fun u => if u = "https://www.gao.gov/search?x".data
      then some ⟨[⟨"/products/a".data, "X".data⟩], none⟩ else none,
   fun _ => none⟩

/-- Witness for claim C2 at a concrete environment whose document fetch
always fails. -/
theorem scrape_failure_record_witness :
    scrapeItem testFailEnv.fetchDoc "https://www.gao.gov/products/a".data =
      emptyRecord "https://www.gao.gov/products/a".data ∧
    emptyRecord "https://www.gao.gov/products/a".data ∈
      (run testFailEnv 0 0 3 "https://www.gao.gov/search?x".data).records := by
  have h := scrape_failure_record_and_completeness testFailEnv
    "https://www.gao.gov/products/a".data 0 0 3
    "https://www.gao.gov/search?x".data rfl
  exact ⟨h.1, h.2.2.1 (by decide)⟩

/-- Claim C9: with a positive item budget `N` and at least `N` document
links discovered by the crawl, the driver produces exactly `N` records,
fetches exactly the first `N` discovered documents (the budget check
precedes each fetch, and the remaining links are discarded), and the
records are flushed once more on stop. -/
theorem run_budget_enforcement (env : CrawlEnv) (N maxPages fuel : Nat)
    (searchUrl : Str) (hN : 0 < N)
    (hAvail : N ≤ (linkStream env maxPages fuel searchUrl 1).length) :
    (run env N maxPages fuel searchUrl).records.length = N ∧
    (run env N maxPages fuel searchUrl).docFetches =
      (linkStream env maxPages fuel searchUrl 1).take N ∧
    (run env N maxPages fuel searchUrl).flushes.getLast? =
      some (run env N maxPages fuel searchUrl).records := by
  have h0 : N ≠ 0 := by omega
  obtain ⟨hd, hr, _⟩ := crawlLoop_budget env N maxPages h0 fuel searchUrl 1
    initState (by simp [initState])
  rw [show initState.docFetches = [] from rfl,
    show initState.processed = 0 from rfl] at hd
  rw [show initState.records = [] from rfl,
    show initState.processed = 0 from rfl] at hr
  refine ⟨?_, ?_, ?_⟩
  · show (crawlLoop env N maxPages fuel searchUrl 1 initState).records.length = N
    rw [hr]
    simp only [List.nil_append, List.length_map, List.length_take, Nat.sub_zero]
    omega
  · show (crawlLoop env N maxPages fuel searchUrl 1 initState).docFetches =
      (linkStream env maxPages fuel searchUrl 1).take N
    rw [hd]
    simp
  · show (List.getLast? (_ ++ [(crawlLoop env N maxPages fuel searchUrl 1
      initState).records])) = _
    rw [List.getLast?_concat]
    rfl

def tbPage1 : PageSoup :=
  ⟨[⟨"/products/1".data, "t".data⟩, ⟨"/products/2".data, "t".data⟩,
    ⟨"/products/3".data, "t".data⟩, ⟨"/products/4".data, "t".data⟩,
    ⟨"/products/5".data, "t".data⟩, ⟨"/products/6".data, "t".data⟩],
   some "https://www.gao.gov/search?page=2".data⟩

def tbPage2 : PageSoup :=
  ⟨[⟨"/products/7".data, "t".data⟩, ⟨"/products/8".data, "t".data⟩,
    ⟨"/products/9".data, "t".data⟩, ⟨"/products/10".data, "t".data⟩], none⟩

def testBudgetEnv : CrawlEnv :=
  ⟨fun u =>
     if u = "https://www.gao.gov/search?page=1".data then some tbPage1
     else if u = "https://www.gao.gov/search?page=2".data then some tbPage2
     else none,
   fun _ => none⟩

/-- Witness for claim C9: a result index of 10 document links across 2
pages under budget `upto = 3`. -/
theorem run_budget_enforcement_witness :
    (run testBudgetEnv 3 0 5 "https://www.gao.gov/search?page=1".data).records.length = 3 ∧
    (run testBudgetEnv 3 0 5 "https://www.gao.gov/search?page=1".data).docFetches =
      (linkStream testBudgetEnv 0 5 "https://www.gao.gov/search?page=1".data 1).take 3 ∧
    (run testBudgetEnv 3 0 5 "https://www.gao.gov/search?page=1".data).flushes.getLast? =
      some (run testBudgetEnv 3 0 5 "https://www.gao.gov/search?page=1".data).records :=
  run_budget_enforcement testBudgetEnv 3 0 5
    "https://www.gao.gov/search?page=1".data (by decide) (by decide)

/-! ### get_html (gao_bid_protests.py:150-181) -/

structure HttpResp where
  status : Nat
  text : Str
deriving DecidableEq

/-- The mutable parts of a `requests.Session` that `get_html` touches. -/
structure Sess where
  headers : List (Str × Str)
  cookies : List (Str × Str)
deriving DecidableEq

structure Parsed where
  src : Str
deriving DecidableEq

/-- `dict.update` over all entries of the second dict. -/
def updateAll (old new : List (Str × Str)) : List (Str × Str) :=
  new.foldl (fun acc e => upsert acc e.1 e.2) old

inductive FetchWarn where
  | status (url : Str) (code : Nat)
  | afterRebuild (url : Str) (code : Nat)
  | requestFailed (url : Str)
deriving DecidableEq

/-- Transport oracle for one `get_html` call: the outcomes of the (at most)
three requests it can issue and of `build_session`, plus the user agent
`_rand_ua()` would pick; `Except.error` models a raised transport
exception. -/
structure GetEnv where
  resp1 : Except Unit HttpResp
  resp2 : Except Unit HttpResp
  build : Except Unit Sess
  resp3 : Except Unit HttpResp
  newUA : Str

def uaKey : Str := "User-Agent".data

/-- `get_html` (gao_bid_protests.py:150-181).  The function is total: the
Python `try` converts every transport exception into the `None` result, so
no exception reaches the caller.  Returned are the result, the caller's
session after the call (mutated in place in Python), and the warnings
printed. -/
def get_html (env : GetEnv) (sess : Sess) (url : Str) :
    Option Parsed × Sess × List FetchWarn :=
  match env.resp1 with
  | .error _ => (none, sess, [.requestFailed url])
  | .ok r =>
    if r.status = 200 then (some ⟨r.text⟩, sess, [])
    else if r.status = 403 then
      match env.resp2 with
      | .error _ =>
        (none, { sess with headers := upsert sess.headers uaKey env.newUA },
         [.requestFailed url])
      | .ok r2 =>
        if r2.status = 200 then
          (some ⟨r2.text⟩,
           { sess with headers := upsert sess.headers uaKey env.newUA }, [])
        else
          match env.build with
          | .error _ =>
            (none, { sess with headers := upsert sess.headers uaKey env.newUA },
             [.requestFailed url])
          | .ok ns =>
            match env.resp3 with
            | .error _ =>
              (none,
               { sess with headers := upsert sess.headers uaKey env.newUA },
               [.requestFailed url])
            | .ok r3 =>
              if r3.status = 200 then
                (some ⟨r3.text⟩,
                 { headers := updateAll (upsert sess.headers uaKey env.newUA)
                     ns.headers,
                   cookies := ns.cookies }, [])
              else
                (none,
                 { sess with headers := upsert sess.headers uaKey env.newUA },
                 [.afterRebuild url r3.status])
    else (none, sess, [.status url r.status])

def okStatus (e : Except Unit HttpResp) (s : Nat) : Prop :=
  ∃ r, e = Except.ok r ∧ r.status = s

lemma okStatus_error (u : Unit) (s : Nat) : ¬okStatus (Except.error u) s := by
  rintro ⟨r, hr, _⟩
  cases hr

lemma okStatus_ok (r : HttpResp) (s : Nat) :
    okStatus (Except.ok r) s ↔ r.status = s := by
  constructor
  · rintro ⟨r', hr, hs⟩
    cases hr
    exact hs
  · intro h
    exact ⟨r, rfl, h⟩

/-- Claim C7: `get_html` returns a parsed document exactly when one of its
escalating attempts got HTTP 200 — directly, after a user-agent rotation on
a 403, or after a full session rebuild when the rotated retry also failed;
on every `none` outcome a warning is logged; on the 403 path the rotated
user agent is installed in the caller's session, and on a rebuild success
the new session's cookies and headers are adopted.  (The model is a total
function: the `try`/`except` of the source converts every exception into
the `None` result, so no exception reaches the caller.) -/
theorem get_html_spec (env : GetEnv) (sess : Sess) (url : Str) :
    ((get_html env sess url).1.isSome ↔
      (okStatus env.resp1 200 ∨
        (okStatus env.resp1 403 ∧
          (okStatus env.resp2 200 ∨
            ((∃ r2, env.resp2 = Except.ok r2 ∧ r2.status ≠ 200) ∧
              (∃ ns, env.build = Except.ok ns) ∧ okStatus env.resp3 200))))) ∧
    ((get_html env sess url).1 = none → (get_html env sess url).2.2 ≠ []) ∧
    (okStatus env.resp1 403 → okStatus env.resp2 200 →
      (get_html env sess url).2.1.headers = upsert sess.headers uaKey env.newUA ∧
      lookupA (get_html env sess url).2.1.headers uaKey = some env.newUA) ∧
    (okStatus env.resp1 403 → (∃ r2, env.resp2 = Except.ok r2 ∧ r2.status ≠ 200) →
      ∀ ns, env.build = Except.ok ns → okStatus env.resp3 200 →
      ((get_html env sess url).2.1.cookies = ns.cookies ∧
        (get_html env sess url).2.1.headers =
          updateAll (upsert sess.headers uaKey env.newUA) ns.headers ∧
        (get_html env sess url).1.isSome)) := by
  rcases h1 : env.resp1 with u | r
  · simp only [get_html, h1]
    refine ⟨by simp [okStatus_error], by simp, ?_, ?_⟩
    · intro h403
      exact absurd h403 (okStatus_error u 403)
    · intro h403
      exact absurd h403 (okStatus_error u 403)
  · by_cases h200 : r.status = 200
    · simp only [get_html, h1, if_pos h200]
      refine ⟨by simp [h1, okStatus_ok, h200], by simp, ?_, ?_⟩
      · intro h403
        rw [okStatus_ok] at h403
        omega
      · intro h403
        rw [okStatus_ok] at h403
        omega
    · by_cases h403 : r.status = 403
      · rcases h2 : env.resp2 with u2 | r2
        · simp only [get_html, h1, if_neg h200, if_pos h403, h2]
          refine ⟨?_, by simp, ?_, ?_⟩
          · simp [h1, h2, okStatus_ok, okStatus_error, h200, h403]
          · intro _ hok2
            exact absurd hok2 (okStatus_error u2 200)
          · rintro _ ⟨r2', hr2, _⟩ _ _ _
            cases hr2
        · by_cases h2200 : r2.status = 200
          · simp only [get_html, h1, if_neg h200, if_pos h403, h2, if_pos h2200]
            refine ⟨by simp [h1, h2, okStatus_ok, h200, h403, h2200], by simp, ?_, ?_⟩
            · intro _ _
              constructor
              · simp
              · exact lookupA_upsert_same _ _ _
            · rintro _ ⟨r2', hr2, hne⟩ _ _ _
              cases hr2
              exact absurd h2200 hne
          · rcases h3 : env.build with u3 | ns
            · simp only [get_html, h1, if_neg h200, if_pos h403, h2,
                if_neg h2200, h3]
              refine ⟨?_, by simp, ?_, ?_⟩
              · simp [h1, h2, h3, okStatus_ok, h200, h403, h2200]
              · intro _ hok2
                rw [okStatus_ok] at hok2
                omega
              · intro _ _ ns' hns
                cases hns
            · rcases h4 : env.resp3 with u4 | r3
              · simp only [get_html, h1, if_neg h200, if_pos h403, h2,
                  if_neg h2200, h3, h4]
                refine ⟨?_, by simp, ?_, ?_⟩
                · simp [h1, h2, h3, h4, okStatus_ok, okStatus_error, h200,
                    h403, h2200]
                · intro _ hok2
                  rw [okStatus_ok] at hok2
                  omega
                · intro _ _ ns' _ hok3
                  exact absurd hok3 (okStatus_error u4 200)
              · by_cases h3200 : r3.status = 200
                · simp only [get_html, h1, if_neg h200, if_pos h403, h2,
                    if_neg h2200, h3, h4, if_pos h3200]
                  refine ⟨by simp [h1, h2, h3, h4, okStatus_ok, h200, h403,
                    h2200, h3200], by simp, ?_, ?_⟩
                  · intro _ hok2
                    rw [okStatus_ok] at hok2
                    omega
                  · intro _ _ ns' hns _
                    cases hns
                    exact ⟨rfl, rfl, by simp⟩
                · simp only [get_html, h1, if_neg h200, if_pos h403, h2,
                    if_neg h2200, h3, h4, if_neg h3200]
                  refine ⟨?_, by simp, ?_, ?_⟩
                  · simp [h1, h2, h3, h4, okStatus_ok, h200, h403, h2200, h3200]
                  · intro _ hok2
                    rw [okStatus_ok] at hok2
                    omega
                  · intro _ _ ns' _ hok3
                    rw [okStatus_ok] at hok3
                    omega
      · simp only [get_html, h1, if_neg h200, if_neg h403]
        refine ⟨?_, by simp, ?_, ?_⟩
        · simp [h1, okStatus_ok, h200, h403]
        · intro hok
          rw [okStatus_ok] at hok
          omega
        · intro hok
          rw [okStatus_ok] at hok
          omega

def newSess0 : Sess :=
  ⟨[("User-Agent".data, "ua-rebuilt".data)], [("gao_c".data, "1".data)]⟩

def env403 : GetEnv :=
  ⟨Except.ok ⟨403, []⟩, Except.ok ⟨500, []⟩, Except.ok newSess0,
   Except.ok ⟨200, "body".data⟩, "ua-rotated".data⟩

/-- Witness for claim C7: a 403, a failed rotated retry, then a successful
fetch from a rebuilt session whose cookies and headers are adopted. -/
theorem get_html_spec_witness :
    (get_html env403 ⟨[], []⟩ "u".data).1.isSome ∧
    (get_html env403 ⟨[], []⟩ "u".data).2.1.cookies = newSess0.cookies := by
  have h := (get_html_spec env403 ⟨[], []⟩ "u".data).2.2.2
    ⟨⟨403, []⟩, rfl, rfl⟩ ⟨⟨500, []⟩, rfl, by decide⟩ newSess0 rfl
    ⟨⟨200, "body".data⟩, rfl, rfl⟩
  exact ⟨h.2.2, h.1⟩

/-! ### Claim C8: boilerplate suppression and the DISCUSSION heading -/

/-- `(?m)$` at absolute position `i`. -/
def atDollarPos (ft : Str) (i : Nat) : Prop :=
  i = ft.length ∨ ft[i]? = some '\n'

/-- `s` occurs as a standalone line of `ft` at position `p`. -/
def standaloneAt (ft : Str) (p : Nat) (s : Str) : Prop :=
  isLineStart ft p = true ∧ matchLit ft p s = true ∧
    atDollarPos ft (p + s.length)

instance (ft : Str) (i : Nat) : Decidable (atDollarPos ft i) := by
  unfold atDollarPos; infer_instance

instance (ft : Str) (p : Nat) (s : Str) : Decidable (standaloneAt ft p s) := by
  unfold standaloneAt; infer_instance

lemma matchLit_le {ft : Str} {q : Nat} {s : Str} (h : matchLit ft q s = true)
    (hs : s ≠ []) : q + s.length ≤ ft.length := by
  rw [matchLit, beq_iff_eq] at h
  have hlen := congrArg List.length h
  simp only [List.length_take, List.length_drop] at hlen
  rw [Nat.min_def] at hlen
  have hpos : 0 < s.length := List.length_pos.mpr hs
  split at hlen <;> omega

lemma matchLit_getElem {ft : Str} {q : Nat} {s : Str} (h : matchLit ft q s = true)
    {i : Nat} (hi : i < s.length) : ft[q + i]? = s[i]? := by
  rw [matchLit, beq_iff_eq] at h
  calc ft[q + i]? = (ft.drop q)[i]? := (List.getElem?_drop ft q i).symm
    _ = ((ft.drop q).take s.length)[i]? := (List.getElem?_take_of_lt hi).symm
    _ = s[i]? := by rw [h]

lemma wsDollarEnd_isSome_of_dollar {l : Str} (h : atDollarL l = true) :
    (wsDollarEnd l).isSome = true := by
  rcases l with _ | ⟨c, rest⟩
  · rfl
  · have hc : c = '\n' := by simpa [atDollarL] using h
    subst hc
    rw [wsDollarEnd, if_pos (by simp [pyWS])]
    rcases wsDollarEnd rest with _ | k
    · simp
    · simp

lemma wsDollarEnd_none_of_head {c : Char} {rest : Str} (h : pyWS c = false) :
    wsDollarEnd (c :: rest) = none := by
  rw [wsDollarEnd, if_neg (by simp [h])]

lemma wsDollarEnd_spec : ∀ {l : Str} {k : Nat}, wsDollarEnd l = some k →
    k ≤ l.length ∧ (∀ c ∈ l.take k, pyWS c = true) ∧ atDollarL (l.drop k) = true := by
  intro l
  induction l with
  | nil =>
    intro k h
    rw [wsDollarEnd] at h
    cases h
    refine ⟨by simp, by simp, rfl⟩
  | cons c rest ih =>
    intro k h
    rw [wsDollarEnd] at h
    by_cases hws : pyWS c
    · rw [if_pos hws] at h
      rcases hrec : wsDollarEnd rest with _ | k'
      · rw [hrec] at h
        by_cases hc : c = '\n'
        · rw [if_pos hc] at h
          cases h
          refine ⟨by simp, by simp, by simp [atDollarL, hc]⟩
        · rw [if_neg hc] at h
          cases h
      · rw [hrec] at h
        cases h
        obtain ⟨ih1, ih2, ih3⟩ := ih hrec
        refine ⟨by simp; omega, ?_, by simpa using ih3⟩
        intro x hx
        rw [List.take_cons (by omega)] at hx
        rcases List.mem_cons.mp hx with rfl | hx'
        · exact hws
        · exact ih2 x (by simpa using hx')
    · rw [if_neg hws] at h
      cases h

lemma dropWhile_append_all {p : Char → Bool} : ∀ {a b : Str},
    (∀ c ∈ a, p c = true) → (a ++ b).dropWhile p = b.dropWhile p := by
  intro a
  induction a with
  | nil => intro b _; rfl
  | cons x a ih =>
    intro b hall
    rw [List.cons_append, List.dropWhile_cons,
      if_pos (hall x (List.mem_cons_self x a))]
    exact ih (fun c hc => hall c (List.mem_cons_of_mem x hc))

lemma pyStrip_append_ws {s w : Str} (hs : s ≠ [])
    (hsc : ∀ c ∈ s, pyWS c = false) (hw : ∀ c ∈ w, pyWS c = true) :
    pyStrip (s ++ w) = s := by
  have hlstrip : lstrip (s ++ w) = s ++ w := by
    apply dropWhile_eq_self_of_head
    intro c hc
    rcases s with _ | ⟨x, s'⟩
    · exact absurd rfl hs
    · rw [List.cons_append, List.head?_cons] at hc
      cases hc
      exact hsc _ (List.mem_cons_self _ _)
  rw [pyStrip, hlstrip, rstrip, List.reverse_append,
    dropWhile_append_all (by intro c hc; rw [List.mem_reverse] at hc; exact hw c hc),
    dropWhile_eq_self_of_head, List.reverse_reverse]
  intro c hc
  rcases hrev : s.reverse with _ | ⟨x, s'⟩
  · have : s = [] := by simpa using congrArg List.reverse hrev
    exact absurd this hs
  · rw [hrev, List.head?_cons] at hc
    cases hc
    have : c ∈ s.reverse := by rw [hrev]; exact List.mem_cons_self _ _
    rw [List.mem_reverse] at this
    exact hsc c this

lemma tryNames_some_of_match {ft : Str} {q : Nat} {s : Str} :
    ∀ {names : List Str}, s ∈ names → matchLit ft q s = true →
    (wsDollarEnd ((ft.drop q).drop s.length)).isSome = true →
    (tryNames ft q names).isSome = true := by
  intro names
  induction names with
  | nil => intro h; cases h
  | cons n rest ih =>
    intro hmem hlit hws
    rw [tryNames]
    by_cases hn : matchLit ft q n
    · rw [if_pos hn]
      rcases hrec : wsDollarEnd ((ft.drop q).drop n.length) with _ | k
      · rcases List.mem_cons.mp hmem with rfl | hmem'
        · rw [hrec] at hws
          cases hws
        · exact ih hmem' hlit hws
      · simp
    · rw [if_neg hn]
      rcases List.mem_cons.mp hmem with rfl | hmem'
      · exact absurd hlit hn
      · exact ih hmem' hlit hws

lemma tryNames_some_spec {ft : Str} {q : Nat} :
    ∀ {names : List Str} {n : Str} {e : Nat},
    tryNames ft q names = some (n, e) →
    n ∈ names ∧ matchLit ft q n = true ∧
      ∃ k, wsDollarEnd ((ft.drop q).drop n.length) = some k ∧
        e = q + n.length + k := by
  intro names
  induction names with
  | nil => intro n e h; cases h
  | cons hd rest ih =>
    intro n e h
    rw [tryNames] at h
    by_cases hlit : matchLit ft q hd
    · rw [if_pos hlit] at h
      rcases hrec : wsDollarEnd ((ft.drop q).drop hd.length) with _ | k
      · rw [hrec] at h
        obtain ⟨h1, h2, h3⟩ := ih h
        exact ⟨List.mem_cons_of_mem hd h1, h2, h3⟩
      · rw [hrec] at h
        cases h
        exact ⟨List.mem_cons_self hd rest, hlit, k, hrec, rfl⟩
    · rw [if_neg hlit] at h
      obtain ⟨h1, h2, h3⟩ := ih h
      exact ⟨List.mem_cons_of_mem hd h1, h2, h3⟩

lemma name_match_at_standalone {ft s n : Str} {p : Nat}
    (hsa : standaloneAt ft p s) (hsne : s ≠ [])
    (hsc : ∀ c ∈ s, pyWS c = false) (hnl : '\n' ∉ n)
    (hlit : matchLit ft p n = true)
    (hws : (wsDollarEnd ((ft.drop p).drop n.length)).isSome = true) : n = s := by
  obtain ⟨hls, hslit, hdollar⟩ := hsa
  have hS : 0 < s.length := List.length_pos.mpr hsne
  rcases Nat.lt_trichotomy n.length s.length with hL | hL | hL
  · -- a shorter name would have to be followed by `\s*$`, but the next
    -- character is a non-whitespace character of `s`
    have hdd : (ft.drop p).drop n.length = ft.drop (p + n.length) :=
      List.drop_drop n.length p ft
    have hchar : ft[p + n.length]? = s[n.length]? := matchLit_getElem hslit hL
    have hsL : s[n.length]? = some (s.get ⟨n.length, hL⟩) :=
      List.getElem?_eq_getElem hL
    set sL := s.get ⟨n.length, hL⟩ with hsLdef
    have hsLmem : sL ∈ s := List.getElem?_mem hsL
    have hsLws : pyWS sL = false := hsc sL hsLmem
    rcases hsuf : ft.drop (p + n.length) with _ | ⟨c, rest⟩
    · have hlen := congrArg List.length hsuf
      simp only [List.length_drop, List.length_nil] at hlen
      have : ft[p + n.length]? = none := List.getElem?_eq_none (by omega)
      rw [this, hsL] at hchar
      cases hchar
    · have hc : c = sL := by
        have h0 : (ft.drop (p + n.length)).head? = ft[p + n.length]? := by
          rw [List.head?_eq_getElem?, List.getElem?_drop, Nat.add_zero]
        rw [hsuf, List.head?_cons, hchar, hsL] at h0
        exact (Option.some.injEq _ _ ▸ h0)
      rw [hdd, hsuf, hc, wsDollarEnd_none_of_head hsLws] at hws
      cases hws
  · -- equal lengths: the literals coincide
    rw [matchLit, beq_iff_eq] at hlit hslit
    rw [← hlit, ← hslit, hL]
  · -- a longer name would contain the newline (or run past the text)
    have hnne : n ≠ [] := by
      intro h
      rw [h] at hL
      simp at hL
    rcases hdollar with hend | hnlc
    · have := matchLit_le hlit hnne
      omega
    · have hchar : n[s.length]? = some '\n' := by
        rw [← matchLit_getElem hlit hL, hnlc]
      exact absurd (List.getElem?_mem hchar) hnl

lemma match_end_lt_standalone {ft s n : Str} {p q k : Nat}
    (hsa : standaloneAt ft p s) (hsne : s ≠ [])
    (hsc : ∀ c ∈ s, pyWS c = false) (hnl : '\n' ∉ n) (hnne : n ≠ [])
    (hq : q < p) (hlit : matchLit ft q n = true)
    (hk : wsDollarEnd ((ft.drop q).drop n.length) = some k) :
    q + n.length + k < p := by
  obtain ⟨hls, hslit, hdollar⟩ := hsa
  have hS : 0 < s.length := List.length_pos.mpr hsne
  have hdd : (ft.drop q).drop n.length = ft.drop (q + n.length) :=
    List.drop_drop n.length q ft
  rw [hdd] at hk
  obtain ⟨hkle, hkws, hkdol⟩ := wsDollarEnd_spec hk
  have hs0 : s[0]? = some (s.get ⟨0, hS⟩) := List.getElem?_eq_getElem hS
  set s0 := s.get ⟨0, hS⟩ with hs0def
  have hs0mem : s0 ∈ s := List.getElem?_mem hs0
  have hs0ws : pyWS s0 = false := hsc s0 hs0mem
  have hftp : ft[p]? = some s0 := by
    have := matchLit_getElem hslit hS
    rw [Nat.add_zero] at this
    rw [this, hs0]
  by_contra hcon
  push_neg at hcon
  rcases Nat.lt_or_ge p (q + n.length) with hcase | hcase
  · -- p-1 would lie inside the matched literal, putting a newline into n
    have hp1 : ft[p-1]? = some '\n' := by
      rw [isLineStart] at hls
      rcases Bool.or_eq_true_iff.mp hls with h0 | hnlb
      · rw [beq_iff_eq] at h0
        omega
      · rwa [beq_iff_eq] at hnlb
    have hidx : p - 1 - q < n.length := by omega
    have : n[p-1-q]? = some '\n' := by
      rw [← matchLit_getElem hlit hidx,
        show q + (p - 1 - q) = p - 1 by omega, hp1]
    exact absurd (List.getElem?_mem this) hnl
  · rcases Nat.lt_or_ge p (q + n.length + k) with hcase2 | hcase2
    · -- p would lie inside the consumed whitespace, but ft[p] is not white
      have hidx : p - (q + n.length) < k := by omega
      have hval : (ft.drop (q + n.length))[p - (q + n.length)]? = some s0 := by
        rw [List.getElem?_drop, show q + n.length + (p - (q + n.length)) = p by
          omega, hftp]
      have hmem : s0 ∈ (ft.drop (q + n.length)).take k := by
        apply List.getElem?_mem (n := p - (q + n.length))
        rw [List.getElem?_take_of_lt hidx, hval]
      have := hkws s0 hmem
      rw [hs0ws] at this
      cases this
    · -- p = the match end, but `$` cannot hold right before ft[p]
      have hpe : p = q + n.length + k := by omega
      have hsufeq : (ft.drop (q + n.length)).drop k = ft.drop p := by
        rw [List.drop_drop]
        congr 1
        omega
      rw [hsufeq] at hkdol
      rcases hd : ft.drop p with _ | ⟨c, rest⟩
      · have hlen := congrArg List.length hd
        simp only [List.length_drop, List.length_nil] at hlen
        have := matchLit_le hslit hsne
        have hplen : p < ft.length := by omega
        omega
      · rw [hd] at hkdol
        have hc : c = s0 := by
          have h0 : (ft.drop p).head? = ft[p]? := by
            rw [List.head?_eq_getElem?, List.getElem?_drop, Nat.add_zero]
          rw [hd, List.head?_cons, hftp] at h0
          exact (Option.some.injEq _ _ ▸ h0)
        rw [atDollarL, beq_iff_eq] at hkdol
        rw [hc] at hkdol
        rw [hkdol] at hs0ws
        simp [pyWS] at hs0ws

lemma atDollarL_drop {ft : Str} {i : Nat} (h : atDollarPos ft i) :
    atDollarL (ft.drop i) = true := by
  rcases h with h | h
  · rw [h, List.drop_length]
    rfl
  · rcases hd : ft.drop i with _ | ⟨c, rest⟩
    · rfl
    · have h0 : (ft.drop i).head? = ft[i]? := by
        rw [List.head?_eq_getElem?, List.getElem?_drop, Nat.add_zero]
      rw [hd, List.head?_cons, h] at h0
      injection h0 with hc
      rw [atDollarL, hc]
      simp

lemma knownMatchAt_of_standalone {ft s : Str} {p : Nat}
    (hsa : standaloneAt ft p s) : knownMatchAt ft s p = true := by
  obtain ⟨hls, hlit, hdol⟩ := hsa
  rw [knownMatchAt, hls, hlit]
  simp only [Bool.true_and, Bool.and_true, Bool.and_self]
  rw [wsThenDollar]
  apply wsDollarEnd_isSome_of_dollar
  rw [List.drop_drop s.length p ft]
  exact atDollarL_drop hdol

lemma standaloneAt_pos_le {ft s : Str} {p : Nat}
    (hsa : standaloneAt ft p s) : p ≤ ft.length := by
  rcases hsa.2.2 with h | h
  · omega
  · obtain ⟨hlt, -⟩ := List.getElem?_eq_some_iff.mp h
    omega

lemma knownFindGo_isSome {ft s : Str} {p : Nat}
    (hm : knownMatchAt ft s p = true) (hp : p ≤ ft.length) :
    ∀ (fuel q : Nat), q ≤ p → ft.length + 1 ≤ q + fuel →
    (knownFindGo ft s fuel q).isSome = true := by
  intro fuel
  induction fuel with
  | zero => intro q hq hf; omega
  | succ fuel ih =>
    intro q hq hf
    rw [knownFindGo, if_neg (by simp only [decide_eq_true_eq]; omega)]
    by_cases hmq : knownMatchAt ft s q
    · rw [if_pos hmq]
      rfl
    · rw [if_neg hmq]
      have hqp : q ≠ p := fun h => hmq (h ▸ hm)
      exact ih (q + 1) (by omega) (by omega)

lemma mem_knownHits {ft s : Str} {p : Nat} (hsa : standaloneAt ft p s)
    (hmem : s ∈ KNOWN_ORDER) : ∃ p0, (s, p0) ∈ knownHits ft := by
  have hm := knownMatchAt_of_standalone hsa
  have hp := standaloneAt_pos_le hsa
  have hsome := knownFindGo_isSome hm hp (ft.length + 1) 0 (by omega) (by omega)
  rw [show knownFindGo ft s (ft.length + 1) 0 = findKnown ft s from rfl] at hsome
  obtain ⟨p0, hp0⟩ := Option.isSome_iff_exists.mp hsome
  refine ⟨p0, ?_⟩
  rw [knownHits, List.mem_filterMap]
  exact ⟨s, hmem, by rw [hp0]; rfl⟩

lemma setdefaultFold_prefix : ∀ (l init : List (Str × Nat)),
    ∃ ext, setdefaultFold init l = init ++ ext := by
  intro l
  induction l with
  | nil => intro init; exact ⟨[], by simp [setdefaultFold]⟩
  | cons e rest ih =>
    intro init
    have hstep : setdefaultFold init (e :: rest) =
        setdefaultFold (if init.any (fun e2 => e2.1 == e.1) then init
          else init ++ [e]) rest := by
      simp [setdefaultFold, List.foldl_cons]
    rw [hstep]
    by_cases hany : init.any (fun e2 => e2.1 == e.1)
    · rw [if_pos hany]
      exact ih init
    · rw [if_neg hany]
      obtain ⟨ext, hext⟩ := ih (init ++ [e])
      exact ⟨[e] ++ ext, by rw [hext, List.append_assoc]⟩

lemma mem_setdefaultFold : ∀ (l init : List (Str × Nat)) (x : Str × Nat),
    x ∈ setdefaultFold init l → x ∈ init ∨ x ∈ l := by
  intro l
  induction l with
  | nil =>
    intro init x h
    left
    simpa [setdefaultFold] using h
  | cons e rest ih =>
    intro init x h
    have hstep : setdefaultFold init (e :: rest) =
        setdefaultFold (if init.any (fun e2 => e2.1 == e.1) then init
          else init ++ [e]) rest := by
      simp [setdefaultFold, List.foldl_cons]
    rw [hstep] at h
    by_cases hany : init.any (fun e2 => e2.1 == e.1)
    · rw [if_pos hany] at h
      rcases ih init x h with h1 | h2
      · exact Or.inl h1
      · exact Or.inr (List.mem_cons_of_mem e h2)
    · rw [if_neg hany] at h
      rcases ih (init ++ [e]) x h with h1 | h2
      · rcases List.mem_append.mp h1 with h1a | h1b
        · exact Or.inl h1a
        · right
          rw [List.mem_singleton] at h1b
          rw [h1b]
          exact List.mem_cons_self e rest
      · exact Or.inr (List.mem_cons_of_mem e h2)

lemma mem_insertByPos (x y : Str × Nat) :
    ∀ l, y ∈ insertByPos x l ↔ y = x ∨ y ∈ l := by
  intro l
  induction l with
  | nil => simp [insertByPos]
  | cons z zs ih =>
    rw [insertByPos]
    by_cases h : x.2 ≤ z.2
    · rw [if_pos h]
      simp only [List.mem_cons]
    · rw [if_neg h]
      simp only [List.mem_cons, ih]
      tauto

lemma mem_sortByPos (y : Str × Nat) : ∀ l, y ∈ sortByPos l ↔ y ∈ l := by
  intro l
  induction l with
  | nil => simp [sortByPos]
  | cons z zs ih =>
    rw [sortByPos, mem_insertByPos]
    simp only [List.mem_cons, ih]

lemma pyWS_eq_false_of_isAZ09 {c : Char} (h : isAZ09 c = true) :
    pyWS c = false := by
  rw [isAZ09, isUpperAZ, isDigitC] at h
  simp only [Bool.or_eq_true, Bool.and_eq_true, decide_eq_true_eq] at h
  have hn : 48 ≤ c.toNat := by omega
  rw [pyWS]
  have h1 : (c == ' ') = false := by
    rw [beq_eq_false_iff_ne]
    intro hc
    rw [hc] at hn
    exact absurd hn (by decide)
  have h2 : (c == '\t') = false := by
    rw [beq_eq_false_iff_ne]
    intro hc
    rw [hc] at hn
    exact absurd hn (by decide)
  have h3 : (c == '\n') = false := by
    rw [beq_eq_false_iff_ne]
    intro hc
    rw [hc] at hn
    exact absurd hn (by decide)
  have h4 : (c == '\r') = false := by
    rw [beq_eq_false_iff_ne]
    intro hc
    rw [hc] at hn
    exact absurd hn (by decide)
  have h5 : (c == '\x0B') = false := by
    rw [beq_eq_false_iff_ne]
    intro hc
    rw [hc] at hn
    exact absurd hn (by decide)
  have h6 : (c == '\x0C') = false := by
    rw [beq_eq_false_iff_ne]
    intro hc
    rw [hc] at hn
    exact absurd hn (by decide)
  rw [h1, h2, h3, h4, h5, h6]
  rfl

lemma pyStrip_ne_nil_of_head {l : Str} {c : Char} (hh : l.head? = some c)
    (hc : pyWS c = false) : pyStrip l ≠ [] := by
  intro hcon
  have hcmem : c ∈ l := by
    rcases l with _ | ⟨a, t⟩
    · cases hh
    · rw [List.head?_cons] at hh
      injection hh with h
      rw [← h]
      exact List.mem_cons_self a t
  have hl : lstrip l = l := by
    apply dropWhile_eq_self_of_head
    intro d hd
    rw [hh] at hd
    injection hd with h
    rw [← h]
    exact hc
  rw [pyStrip, hl, rstrip] at hcon
  have hnil : l.reverse.dropWhile pyWS = [] := by
    have := congrArg List.reverse hcon
    simpa using this
  rw [List.dropWhile_eq_nil_iff] at hnil
  have := hnil c (by rwa [List.mem_reverse])
  rw [hc] at this
  cases this

lemma capsTryAt_name_ne {ft : Str} {q : Nat} {nm : Str} {e : Nat}
    (h : capsTryAt ft q = some (nm, e)) : nm ≠ [] := by
  rw [capsTryAt] at h
  by_cases hls : isLineStart ft q
  · rw [if_pos hls] at h
    rcases hget : ft[q]? with _ | c
    · rw [hget] at h
      cases h
    · rw [hget] at h
      dsimp only at h
      by_cases haz : isAZ09 c
      · rw [if_pos haz] at h
        rcases hg : greedyClassDollar 40 (ft.drop (q + 1)) with _ | m
        · rw [hg] at h
          cases h
        · rw [hg] at h
          dsimp only at h
          by_cases h3 : 3 ≤ m
          · rw [if_pos h3] at h
            injection h with h2
            have hnm : nm = pyStrip ((ft.drop q).take (1 + m)) := by
              have := congrArg Prod.fst h2
              simpa using this.symm
            obtain ⟨hlt, hgetc⟩ := List.getElem?_eq_some_iff.mp hget
            have hdq : ft.drop q = c :: ft.drop (q + 1) := by
              rw [List.drop_eq_getElem_cons hlt, hgetc]
            rw [hdq, show 1 + m = m + 1 from by omega,
              List.take_succ_cons] at hnm
            rw [hnm]
            exact pyStrip_ne_nil_of_head (List.head?_cons)
              (pyWS_eq_false_of_isAZ09 haz)
          · rw [if_neg h3] at h
            cases h
      · rw [if_neg haz] at h
        cases h
  · rw [if_neg hls] at h
    cases h

lemma capsScanGo_mem_shape {ft : Str} : ∀ (fuel q : Nat) (x : Str × Nat),
    x ∈ capsScanGo ft fuel q → ∃ q0 e, capsTryAt ft q0 = some (x.1, e) := by
  intro fuel
  induction fuel with
  | zero =>
    intro q x h
    cases h
  | succ fuel ih =>
    intro q x h
    by_cases hlen : ft.length < q
    · rw [show capsScanGo ft (fuel + 1) q = [] from by
        rw [capsScanGo, if_pos (by simpa using hlen)]] at h
      cases h
    · rcases ht : capsTryAt ft q with _ | ⟨name, e⟩
      · rw [capsScanGo_succ_none ht hlen fuel] at h
        exact ih _ x h
      · rw [capsScanGo_succ_some ht hlen fuel] at h
        rcases List.mem_append.mp h with h1 | h2
        · by_cases hfil : (pyUpper name == name &&
            !(name == "U N I T E D  S T A T E S".data)) = true
          · rw [if_pos hfil, List.mem_singleton] at h1
            rw [h1]
            exact ⟨q, e, ht⟩
          · rw [if_neg hfil] at h1
            cases h1
        · exact ih _ x h2

lemma knownHits_mem_order {ft : Str} {x : Str × Nat}
    (h : x ∈ knownHits ft) : x.1 ∈ KNOWN_ORDER := by
  rw [knownHits, List.mem_filterMap] at h
  obtain ⟨a, ha, hfa⟩ := h
  rcases hfk : findKnown ft a with _ | p0
  · rw [hfk] at hfa
    cases hfa
  · rw [hfk] at hfa
    injection hfa with h2
    rw [← h2]
    exact ha

lemma orderedNames_ne {ft : Str} : ∀ n ∈ orderedNames ft, n ≠ [] := by
  intro n hn
  rw [orderedNames, List.mem_map] at hn
  obtain ⟨x, hx, hfst⟩ := hn
  rw [mem_sortByPos] at hx
  rw [foundPositions] at hx
  rcases mem_setdefaultFold _ _ _ hx with hk | hc
  · have := knownHits_mem_order hk
    rw [hfst] at this
    intro hne
    rw [hne] at this
    revert this
    decide
  · obtain ⟨q0, e, hq0⟩ := capsScanGo_mem_shape _ _ x hc
    rw [hfst] at hq0
    exact capsTryAt_name_ne hq0

lemma rxScanGo_finds_standalone {ft s : Str} {p : Nat} {names : List Str}
    (hsa : standaloneAt ft p s) (hsne : s ≠ [])
    (hsc : ∀ c ∈ s, pyWS c = false)
    (hmem : s ∈ names)
    (hnl : ∀ n ∈ names, '\n' ∉ n)
    (hne : ∀ n ∈ names, n ≠ []) :
    ∀ (fuel q : Nat), q ≤ p → ft.length + 1 ≤ q + fuel →
    s ∈ (rxScanGo names ft fuel q).map (fun m => m.1) := by
  have hple := standaloneAt_pos_le hsa
  intro fuel
  induction fuel with
  | zero =>
    intro q hq hf
    omega
  | succ fuel ih =>
    intro q hq hf
    rw [rxScanGo, if_neg (by simp only [decide_eq_true_eq]; omega)]
    by_cases hls : isLineStart ft q
    · rw [if_pos hls]
      rcases htn : tryNames ft q names with _ | ⟨n, e⟩
      · dsimp only
        by_cases hqp : q = p
        · subst hqp
          have hws : (wsDollarEnd ((ft.drop q).drop s.length)).isSome = true := by
            apply wsDollarEnd_isSome_of_dollar
            rw [List.drop_drop s.length q ft]
            exact atDollarL_drop hsa.2.2
          have hcontra := tryNames_some_of_match hmem hsa.2.1 hws
          rw [htn] at hcontra
          cases hcontra
        · exact ih (q + 1) (by omega) (by omega)
      · dsimp only
        obtain ⟨hnmem, hlit, k, hk, he⟩ := tryNames_some_spec htn
        by_cases hqp : q = p
        · subst hqp
          have hn_eq : n = s := name_match_at_standalone hsa hsne hsc
            (hnl n hnmem) hlit (by rw [hk]; rfl)
          subst hn_eq
          have hmark : pyStrip ((ft.drop q).take (e - q)) = n := by
            rw [he, show q + n.length + k - q = n.length + k from by omega,
              List.take_add]
            have hfirst : (ft.drop q).take n.length = n := by
              rwa [matchLit, beq_iff_eq] at hlit
            rw [hfirst]
            apply pyStrip_append_ws hsne hsc
            exact (wsDollarEnd_spec hk).2.1
          rw [List.map_cons, hmark]
          exact List.mem_cons_self _ _
        · have hqlt : q < p := by omega
          have hend := match_end_lt_standalone hsa hsne hsc (hnl n hnmem)
            (hne n hnmem) hqlt hlit hk
          rw [List.map_cons]
          apply List.mem_cons_of_mem
          apply ih
          · rw [he] at *
            split <;> omega
          · split <;> omega
    · rw [if_neg hls]
      have hqp : q ≠ p := by
        intro h
        rw [h] at hls
        exact hls hsa.1
      exact ih (q + 1) (by omega) (by omega)

lemma bodiesList_fst (ft : Str) : ∀ ms : List (Str × Nat × Nat),
    (bodiesList ft ms).map Prod.fst = ms.map (fun m => m.1) := by
  intro ms
  induction ms with
  | nil => rfl
  | cons m rest ih =>
    rcases m with ⟨n, st, en⟩
    simp only [bodiesList, List.map_cons, ih]

lemma keysA_upsert_mono {acc : List (Str × Str)} {k0 : Str} (k v : Str)
    (h : k0 ∈ keysA acc) : k0 ∈ keysA (upsert acc k v) := by
  rw [upsert]
  by_cases hany : acc.any (fun e => e.1 == k)
  · rw [if_pos hany]
    rw [keysA, List.mem_map] at h ⊢
    obtain ⟨e, he, hfst⟩ := h
    refine ⟨_, List.mem_map_of_mem (fun e => if e.1 == k then (k, v) else e) he, ?_⟩
    by_cases hek : e.1 == k
    · rw [if_pos hek]
      have hke := beq_iff_eq.mp hek
      rw [← hfst, ← hke]
    · rw [if_neg hek]
      exact hfst
  · rw [if_neg hany, keysA, List.map_append]
    rw [keysA] at h
    exact List.mem_append_left _ h

lemma keysA_upsert_self (acc : List (Str × Str)) (k v : Str) :
    k ∈ keysA (upsert acc k v) := by
  rw [upsert]
  by_cases hany : acc.any (fun e => e.1 == k)
  · rw [if_pos hany]
    rw [List.any_eq_true] at hany
    obtain ⟨e, he, hek⟩ := hany
    rw [keysA, List.mem_map]
    refine ⟨_, List.mem_map_of_mem (fun e => if e.1 == k then (k, v) else e) he, ?_⟩
    rw [if_pos hek]
  · rw [if_neg hany, keysA, List.map_append]
    apply List.mem_append_right
    simp

lemma mem_keysA_foldl_upsert :
    ∀ (l acc : List (Str × Str)) (k : Str),
    (k ∈ keysA acc ∨ k ∈ l.map Prod.fst) →
    k ∈ keysA (l.foldl (fun acc e => upsert acc e.1 e.2) acc) := by
  intro l
  induction l with
  | nil =>
    intro acc k h
    rcases h with h | h
    · simpa using h
    · simp at h
  | cons e rest ih =>
    intro acc k h
    rw [List.foldl_cons]
    apply ih
    rcases h with h | h
    · exact Or.inl (keysA_upsert_mono e.1 e.2 h)
    · rw [List.map_cons, List.mem_cons] at h
      rcases h with h | h
      · left
        rw [h]
        exact keysA_upsert_self acc e.1 e.2
      · exact Or.inr h

/-- Claim C8 (amended): `clean_report_text` drops every rstripped input line
that is a `Page N` footer or a bare docket-number line (in particular
`"Page 4"` and `"B-123456"` never survive), keeps a line consisting solely of
`DISCUSSION`, and whenever `DISCUSSION` is a standalone line of the
normalized cleaned text it becomes a heading key of
`split_sections(clean_report_text(text))` — provided no heading candidate of
that text spans multiple lines (the `\s` in `CAPS_LINE` matches newlines, so
adjacent all-caps lines can merge into one multi-line candidate that
swallows the `DISCUSSION` line). -/
theorem clean_drops_footers_keeps_discussion (t : Str) :
    ("Page 4".data ∉ keptLines t ∧ "B-123456".data ∉ keptLines t) ∧
    ("DISCUSSION".data ∈ rstrippedLines t → "DISCUSSION".data ∈ keptLines t) ∧
    (∀ p : Nat,
      standaloneAt (normalizeText (cleanReportText t)) p "DISCUSSION".data →
      (∀ n ∈ orderedNames (normalizeText (cleanReportText t)), '\n' ∉ n) →
      "DISCUSSION".data ∈ keysA (splitSections (cleanReportText t))) := by
  refine ⟨⟨?_, ?_⟩, ?_, ?_⟩
  · intro h
    simp only [keptLines, List.mem_filter] at h
    exact absurd h.2 (by decide)
  · intro h
    simp only [keptLines, List.mem_filter] at h
    exact absurd h.2 (by decide)
  · intro h
    rw [keptLines]
    exact List.mem_filter.mpr ⟨h, by decide⟩
  · intro p hsa hnl
    set ft := normalizeText (cleanReportText t) with hft
    have hsne : "DISCUSSION".data ≠ [] := by decide
    have hsc : ∀ c ∈ "DISCUSSION".data, pyWS c = false := by decide
    obtain ⟨p0, hp0⟩ := mem_knownHits hsa (by decide)
    obtain ⟨ext, hext⟩ := setdefaultFold_prefix (capsHits ft) (knownHits ft)
    have hfp : ("DISCUSSION".data, p0) ∈ foundPositions ft := by
      rw [foundPositions, hext]
      exact List.mem_append_left _ hp0
    have hord : "DISCUSSION".data ∈ orderedNames ft := by
      rw [orderedNames, List.mem_map]
      exact ⟨_, (mem_sortByPos _ _).mpr hfp, rfl⟩
    have hmarks : "DISCUSSION".data ∈ (marksOf ft).map (fun m => m.1) := by
      rw [marksOf]
      exact rxScanGo_finds_standalone hsa hsne hsc hord hnl
        (fun n hn => orderedNames_ne n hn) (ft.length + 1) 0 (by omega) (by omega)
    have hkeys : "DISCUSSION".data ∈ keysA (sectionMap ft) := by
      rw [sectionMap]
      apply mem_keysA_foldl_upsert
      right
      rw [bodiesList_fst]
      exact hmarks
    have hftne : ft ≠ [] := by
      have hle := matchLit_le hsa.2.1 hsne
      intro hcon
      rw [hcon] at hle
      simp at hle
    have hfpne : foundPositions ft ≠ [] := List.ne_nil_of_mem hfp
    simp only [splitSections]
    rw [← hft, if_neg hftne, if_neg hfpne]
    exact hkeys

/-- Witness for claim C8 at a concrete input: on
`"intro\nDISCUSSION\nbody text"` the `DISCUSSION` line survives the
pipeline and becomes a section key. -/
theorem clean_drops_footers_keeps_discussion_witness :
    "DISCUSSION".data ∈ rstrippedLines "intro\nDISCUSSION\nbody text".data ∧
    standaloneAt (normalizeText
      (cleanReportText "intro\nDISCUSSION\nbody text".data)) 6
      "DISCUSSION".data ∧
    "DISCUSSION".data ∈ keptLines "intro\nDISCUSSION\nbody text".data ∧
    "DISCUSSION".data ∈ keysA (splitSections
      (cleanReportText "intro\nDISCUSSION\nbody text".data)) :=
  ⟨by decide, by decide,
   (clean_drops_footers_keeps_discussion
     "intro\nDISCUSSION\nbody text".data).2.1 (by decide),
   (clean_drops_footers_keeps_discussion
     "intro\nDISCUSSION\nbody text".data).2.2 6 (by decide) (by decide)⟩
